import Mathlib

/-!
Verification of the resilient multi-provider generation gateway of the
autoNovel repository (src/services/geminiService.ts).

JavaScript strings are modelled as `List Char`; JSON.parse is modelled by a
fuel-indexed recursive-descent parser over the same grammar (numbers are
modelled as integers; float syntax, `\uXXXX` surrogate pairs and the
leading-zero restriction are outside the model).  JS truthiness, the
regex-repair pipeline, the retry loop, the SSE decoding loop and the
configuration gates are embedded function by function from the source.
-/

namespace AutoNovel

/-- JavaScript strings, modelled as lists of characters. -/
abbrev Str := List Char

/-- Conversion from a Lean string literal to the model's string type. -/
def strLit (s : String) : Str := s.data

/-- The whitespace characters recognised by the JSON grammar and by the
model's `trim` (space, newline, tab, carriage return). -/
def wsChar (c : Char) : Bool := c = ' ' || c = '\n' || c = '\t' || c = '\r'

/-- Drop the leading whitespace of a string. -/
def skipWs : Str → Str
  | [] => []
  | c :: r => if wsChar c then skipWs r else c :: r

/-- String.prototype.trim, left end only. -/
def trimL : Str → Str := skipWs

/-- String.prototype.trim, right end only. -/
def trimR (s : Str) : Str := (skipWs s.reverse).reverse

/-- String.prototype.trim. -/
def trimStr (s : Str) : Str := trimR (trimL s)

/-- Does the second string start with the first (String.prototype.startsWith)? -/
def strStarts : Str → Str → Bool
  | [], _ => true
  | _ :: _, [] => false
  | a :: as, b :: bs => a = b && strStarts as bs

/-- Does the second string contain the first (String.prototype.includes)? -/
def strHas (pat : Str) : Str → Bool
  | [] => strStarts pat []
  | c :: cs => strStarts pat (c :: cs) || strHas pat cs

theorem strStarts_length {p s : Str} (h : strStarts p s = true) : p.length ≤ s.length := by
  induction p generalizing s with
  | nil => simp
  | cons a as ih =>
    cases s with
    | nil => simp [strStarts] at h
    | cons b bs =>
      simp only [strStarts, Bool.and_eq_true] at h
      simpa using ih h.2

/-- First index of a character (String.prototype.indexOf), as an Option. -/
def idxOf? (c : Char) : Str → Option Nat
  | [] => none
  | a :: r => if a = c then some 0 else (idxOf? c r).map (· + 1)

/-- Last index of a character (String.prototype.lastIndexOf), as an Option. -/
def lastIdxOf? (c : Char) (s : Str) : Option Nat :=
  (idxOf? c s.reverse).map (fun i => s.length - 1 - i)

/-- String.prototype.substring `s.substring(a, b)` for `a ≤ b`. -/
def subStr (s : Str) (a b : Nat) : Str := (s.drop a).take (b - a)

/-- Array.prototype.join with a separator. -/
def joinSep (sep : Str) : List Str → Str
  | [] => []
  | [x] => x
  | x :: y :: r => x ++ sep ++ joinSep sep (y :: r)

/-- String.prototype.split on the newline character: `"a\nb" ↦ ["a","b"]`,
and the empty string splits to `[""]`, as in JavaScript. -/
def splitNl : Str → List Str
  | [] => [[]]
  | c :: r =>
    if c = '\n' then [] :: splitNl r
    else
      match splitNl r with
      | [] => [[c]]
      | h :: t => (c :: h) :: t

/-- JSON values as produced by the modelled JSON.parse.  Numbers are
integers; object fields keep their textual order (duplicate keys are kept,
with access taking the last binding, as JavaScript objects do). -/
inductive Json where
  | null : Json
  | bool : Bool → Json
  | num : Int → Json
  | str : Str → Json
  | arr : List Json → Json
  | obj : List (Str × Json) → Json

/-- JavaScript truthiness of a JSON value. -/
def jsTruthy : Json → Bool
  | .null => false
  | .bool b => b
  | .num n => n ≠ 0
  | .str s => s ≠ []
  | .arr _ => true
  | .obj _ => true

/-- Value of a hexadecimal digit. -/
def hexVal (c : Char) : Option Nat :=
  if c.isDigit then some (c.toNat - 48)
  else if 'a' ≤ c && c ≤ 'f' then some (c.toNat - 87)
  else if 'A' ≤ c && c ≤ 'F' then some (c.toNat - 55)
  else none

/-- Body of a JSON string literal, after the opening quote: returns the
decoded characters and the remainder after the closing quote. -/
def pStrBody : Str → Option (Str × Str)
  | [] => none
  | c :: r =>
    if c = '"' then some ([], r)
    else if c = '\\' then
      match r with
      | [] => none
      | e :: r2 =>
        if e = '"' then (pStrBody r2).map (fun p => ('"' :: p.1, p.2))
        else if e = '\\' then (pStrBody r2).map (fun p => ('\\' :: p.1, p.2))
        else if e = '/' then (pStrBody r2).map (fun p => ('/' :: p.1, p.2))
        else if e = 'b' then (pStrBody r2).map (fun p => ('\x08' :: p.1, p.2))
        else if e = 'f' then (pStrBody r2).map (fun p => ('\x0c' :: p.1, p.2))
        else if e = 'n' then (pStrBody r2).map (fun p => ('\n' :: p.1, p.2))
        else if e = 'r' then (pStrBody r2).map (fun p => ('\r' :: p.1, p.2))
        else if e = 't' then (pStrBody r2).map (fun p => ('\t' :: p.1, p.2))
        else if e = 'u' then
          match r2 with
          | h1 :: h2 :: h3 :: h4 :: r3 =>
            match hexVal h1, hexVal h2, hexVal h3, hexVal h4 with
            | some a, some b, some c3, some d =>
              let n := ((a * 16 + b) * 16 + c3) * 16 + d
              if _h : n.isValidChar then
                (pStrBody r3).map (fun p => (Char.ofNat n :: p.1, p.2))
              else none
            | _, _, _, _ => none
          | _ => none
        else none
    else (pStrBody r).map (fun p => (c :: p.1, p.2))

/-- Natural number denoted by a digit run. -/
def natOfDigits (ds : Str) : Nat := ds.foldl (fun a c => a * 10 + (c.toNat - 48)) 0

/-- The leading digit run of a string and what follows it; fails when there
is no leading digit. -/
def pDigits (s : Str) : Option (Str × Str) :=
  if (s.takeWhile Char.isDigit).isEmpty then none
  else some (s.takeWhile Char.isDigit, s.dropWhile Char.isDigit)

/-- JSON number (integers only in this model: an optional minus sign and a
digit run). -/
def pNum : Str → Option (Json × Str)
  | [] => none
  | c :: r =>
    if c = '-' then (pDigits r).map (fun p => (.num (-(natOfDigits p.1 : Int)), p.2))
    else (pDigits (c :: r)).map (fun p => (.num (natOfDigits p.1 : Int), p.2))

/-- Prepend a parsed element to a parsed array value (the tail parser always
returns an array, so the fall-through case is unreachable). -/
def arrCons (v : Json) : Json → Json
  | .arr xs => .arr (v :: xs)
  | j => j

/-- Prepend a parsed field to a parsed object value. -/
def objCons (kv : Str × Json) : Json → Json
  | .obj kvs => .obj (kv :: kvs)
  | j => j

/-- The pairing of `arrCons` with an untouched remainder. -/
def consArr (v : Json) (p : Json × Str) : Json × Str := (arrCons v p.1, p.2)

/-- The pairing of `objCons` with an untouched remainder. -/
def consObj (kv : Str × Json) (p : Json × Str) : Json × Str := (objCons kv p.1, p.2)

mutual

/-- JSON value parser: fuel-indexed recursive descent, mirroring JSON.parse
on the grammar of the model. -/
def pVal : Nat → Str → Option (Json × Str)
  | 0, _ => none
  | f + 1, s =>
    match skipWs s with
    | [] => none
    | c :: r =>
      if c = '"' then (pStrBody r).map (fun p => (.str p.1, p.2))
      else if c = '[' then pItems f r
      else if c = '{' then pFields f r
      else if c = 'n' then
        match r with
        | 'u' :: 'l' :: 'l' :: r2 => some (.null, r2)
        | _ => none
      else if c = 't' then
        match r with
        | 'r' :: 'u' :: 'e' :: r2 => some (.bool true, r2)
        | _ => none
      else if c = 'f' then
        match r with
        | 'a' :: 'l' :: 's' :: 'e' :: r2 => some (.bool false, r2)
        | _ => none
      else pNum (c :: r)

/-- Array elements after the opening bracket (empty array, or first value
then `pMore`). -/
def pItems : Nat → Str → Option (Json × Str)
  | 0, _ => none
  | f + 1, s =>
    match skipWs s with
    | [] => none
    | c :: r =>
      if c = ']' then some (.arr [], r)
      else
        match pVal f (c :: r) with
        | none => none
        | some (v, rem) => (pMore f rem).map (consArr v)

/-- Continuation of an array: a comma and a value, repeatedly, then the
closing bracket. -/
def pMore : Nat → Str → Option (Json × Str)
  | 0, _ => none
  | f + 1, s =>
    match skipWs s with
    | [] => none
    | c :: r =>
      if c = ']' then some (.arr [], r)
      else if c = ',' then
        match pVal f r with
        | none => none
        | some (v, rem) => (pMore f rem).map (consArr v)
      else none

/-- Object fields after the opening brace (empty object, or first field then
`pFMore`). -/
def pFields : Nat → Str → Option (Json × Str)
  | 0, _ => none
  | f + 1, s =>
    match skipWs s with
    | [] => none
    | c :: r =>
      if c = '}' then some (.obj [], r)
      else
        match pField f (c :: r) with
        | none => none
        | some (kv, rem) => (pFMore f rem).map (consObj kv)

/-- Continuation of an object: a comma and a field, repeatedly, then the
closing brace. -/
def pFMore : Nat → Str → Option (Json × Str)
  | 0, _ => none
  | f + 1, s =>
    match skipWs s with
    | [] => none
    | c :: r =>
      if c = '}' then some (.obj [], r)
      else if c = ',' then
        match pField f r with
        | none => none
        | some (kv, rem) => (pFMore f rem).map (consObj kv)
      else none

/-- One object field: a quoted key, a colon, a value. -/
def pField : Nat → Str → Option ((Str × Json) × Str)
  | 0, _ => none
  | f + 1, s =>
    match skipWs s with
    | [] => none
    | c :: r =>
      if c = '"' then
        match pStrBody r with
        | none => none
        | some (k, rem) =>
          match skipWs rem with
          | [] => none
          | d :: r2 =>
            if d = ':' then (pVal f r2).map (fun p => ((k, p.1), p.2))
            else none
      else none

end

/-- The fuel that always suffices for an input of length n (each two fuel
steps consume at least one character). -/
def bigFuel (s : Str) : Nat := 2 * s.length + 2

/-- The model of JSON.parse: parse one value, then require only whitespace
to remain; `none` models a thrown SyntaxError. -/
def jsonParse (s : Str) : Option Json :=
  match pVal (bigFuel s) s with
  | some (v, rem) => if skipWs rem = [] then some v else none
  | none => none

/-- Property access `o[k]` on a JSON value: defined only on objects, taking
the last binding of the key as JavaScript object literals do. -/
def objGet (k : Str) : Json → Option Json
  | .obj kvs => ((kvs.filter (fun kv => kv.1 = k)).getLast?).map (·.2)
  | _ => none

/-- Index access `a[n]` on a JSON value: defined only on arrays. -/
def idxGet (n : Nat) : Json → Option Json
  | .arr xs => xs.get? n
  | _ => none

/-- The case-insensitive `json` tag right after three backticks. -/
def fenceTag (s : Str) : Bool :=
  match s.drop 3 with
  | a :: rest =>
    (a.toLower = 'j') &&
      (match rest with
       | b :: c :: d :: _ => b.toLower = 's' && c.toLower = 'o' && d.toLower = 'n'
       | _ => false)
  | [] => false

/-- Does `/```json/i` match at the head of the string? -/
def isFenceJsonAt (s : Str) : Bool := strStarts (strLit "```") s && fenceTag s

theorem isFenceJsonAt_length {s : Str} (h : isFenceJsonAt s = true) : 7 ≤ s.length := by
  simp only [isFenceJsonAt, Bool.and_eq_true] at h
  obtain ⟨h1, h2⟩ := h
  have h3 := strStarts_length h1
  simp only [strLit] at h3
  simp only [fenceTag] at h2
  rcases hd : s.drop 3 with _ | ⟨a, rest⟩
  · rw [hd] at h2; simp at h2
  · rw [hd] at h2
    rcases rest with _ | ⟨b, rest2⟩
    · simp at h2
    · rcases rest2 with _ | ⟨c, rest3⟩
      · simp at h2
      · rcases rest3 with _ | ⟨d, rest4⟩
        · simp at h2
        · have : (s.drop 3).length = s.length - 3 := List.length_drop ..
          rw [hd] at this
          simp only [List.length_cons] at this
          omega

/-- Fuel-indexed scan of `text.replace(/```json/gi, '')`: on a match the scan
skips the seven matched characters, otherwise it copies one character and
advances, as the regex engine does.  Fuel at least the string length is
always enough, since every step strictly shortens the string. -/
def stripFenceJsonGo : Nat → Str → Str
  | _, [] => []
  | 0, s => s
  | f + 1, c :: rest =>
    if isFenceJsonAt (c :: rest) then stripFenceJsonGo f ((c :: rest).drop 7)
    else c :: stripFenceJsonGo f rest

/-- The first replacement of `cleanAndParseJson`: `.replace(/```json/gi, '')`. -/
def stripFenceJson (s : Str) : Str := stripFenceJsonGo s.length s

/-- Fuel-indexed scan of `.replace(/```/g, '')`. -/
def stripTicksGo : Nat → Str → Str
  | _, [] => []
  | 0, s => s
  | f + 1, c :: rest =>
    if strStarts (strLit "```") (c :: rest) then stripTicksGo f ((c :: rest).drop 3)
    else c :: stripTicksGo f rest

/-- The second replacement of `cleanAndParseJson`: `.replace(/```/g, '')`. -/
def stripTicks (s : Str) : Str := stripTicksGo s.length s

/-- The quoted form `"key"` of a field name. -/
def keyQuoted (key : Str) : Str := '"' :: (key ++ ['"'])

/-- Consume the literal `"key"` at the head of the string, if present. -/
def dropKeyQuoted (key : Str) (s : Str) : Option Str :=
  if strStarts (keyQuoted key) s then some (s.drop (key.length + 2)) else none

/-- Length of the maximal whitespace run at the head of the string
(the greedy match of the regex `\s*`). -/
def countWs : Str → Nat
  | [] => 0
  | c :: r => if wsChar c then countWs r + 1 else 0

/-- The negative lookahead `(?![{\["\d]|true|false|null)` of the unquoted-value
repair regex: true when the lookahead FAILS the match at this position. -/
def lookaheadBlocked (s : Str) : Bool :=
  match s with
  | [] => false
  | c :: _ =>
    c = '{' || c = '[' || c = '"' || c.isDigit
      || strStarts (strLit "true") s || strStarts (strLit "false") s
      || strStarts (strLit "null") s

/-- A character ending the captured value: the class `[^,}\]]` excludes these. -/
def stopChar (c : Char) : Bool := c = ',' || c = '}' || c = ']'

/-- The `\s*(?!...)([^,}\]]+)` part of the repair regex, after the colon:
the greedy whitespace run is tried first; if the lookahead blocks it (or the
capture would be empty), the engine backtracks by one whitespace character,
where the lookahead always passes.  Returns (consumed whitespace, capture,
remainder after the capture). -/
def matchAfterColon (s : Str) : Option (Str × Str × Str) :=
  let j := countWs s
  let suf := s.drop j
  let cap := suf.takeWhile (fun c => !stopChar c)
  if !lookaheadBlocked suf && cap ≠ [] then
    some (s.take j, cap, suf.drop cap.length)
  else if j = 0 then none
  else
    let suf2 := s.drop (j - 1)
    let cap2 := suf2.takeWhile (fun c => !stopChar c)
    some (s.take (j - 1), cap2, suf2.drop cap2.length)

/-- Exponent part acceptable to JavaScript's `Number()`. -/
def jsExpOk : Str → Bool
  | [] => true
  | c :: r =>
    if c = 'e' || c = 'E' then
      let r2 := match r with
        | s' :: r' => if s' = '+' || s' = '-' then r' else s' :: r'
        | [] => []
      match r2.span Char.isDigit with
      | ([], _) => false
      | (_, rest) => rest.isEmpty
    else false

/-- Mantissa acceptable to `Number()`: digits, optionally with a fractional
part, or a bare fractional part. -/
def jsMantissaOk (s : Str) : Bool :=
  match s.span Char.isDigit with
  | ([], rest) =>
    match rest with
    | '.' :: r2 =>
      match r2.span Char.isDigit with
      | ([], _) => false
      | (_, rest2) => jsExpOk rest2
    | _ => false
  | (_, rest) =>
    match rest with
    | '.' :: r2 => jsExpOk (r2.span Char.isDigit).2
    | _ => jsExpOk rest

/-- `!isNaN(Number(s))` for the decimal forms of `Number()` (the empty string
converts to 0; hexadecimal and Infinity forms are outside the model). -/
def jsNumberNonNaN (s : Str) : Bool :=
  let t := trimStr s
  if t.isEmpty then true
  else
    let t2 := match t with
      | c :: r => if c = '+' || c = '-' then r else c :: r
      | [] => []
    !t2.isEmpty && jsMantissaOk t2

/-- `isNaN(Number(s))`. -/
def numIsNaN (s : Str) : Bool := !jsNumberNonNaN s

/-- `val.replace(/"/g, '\\"')` in the repair callback. -/
def escQ : Str → Str
  | [] => []
  | c :: r => if c = '"' then '\\' :: '"' :: escQ r else c :: escQ r

/-- One attempted match of the repair regex
`"key"\s*:\s*(?![{\["\d]|true|false|null)([^,}\]]+)` at the head of `s`,
with the source's callback applied: a numeric-looking capture is left as the
whole match, any other capture is trimmed, quote-escaped and re-quoted.
Returns (replacement text, remainder after the match). -/
def tryKeyMatch (key : Str) (s : Str) : Option (Str × Str) :=
  if strStarts (keyQuoted key) s then
    let rest1 := s.drop (key.length + 2)
    let n1 := countWs rest1
    match rest1.drop n1 with
    | ':' :: rest2 =>
      match matchAfterColon rest2 with
      | none => none
      | some (wsC, cap, after) =>
        let whole := keyQuoted key ++ rest1.take n1 ++ ':' :: (wsC ++ cap)
        let trimmed := trimStr cap
        let rep :=
          if !numIsNaN trimmed then whole
          else keyQuoted key ++ strLit ": " ++ '"' :: (escQ trimmed ++ ['"'])
        some (rep, after)
    | _ => none
  else none

theorem matchAfterColon_len {s w c a : Str} (h : matchAfterColon s = some (w, c, a)) :
    a.length ≤ s.length := by
  simp only [matchAfterColon] at h
  split at h
  · injection h with h'
    injection h' with h1 h'
    injection h' with h2 h3
    subst h3
    simp only [List.length_drop]
    omega
  · split at h
    · exact absurd h (by simp)
    · injection h with h'
      injection h' with h1 h'
      injection h' with h2 h3
      subst h3
      simp only [List.length_drop]
      omega

theorem tryKeyMatch_len {key s rep after : Str}
    (h : tryKeyMatch key s = some (rep, after)) : after.length < s.length := by
  simp only [tryKeyMatch] at h
  split at h
  · next hstart =>
    have hks : key.length + 2 ≤ s.length := by
      have := strStarts_length hstart
      simpa [keyQuoted] using this
    split at h
    · next rest2 hdrop =>
      split at h
      · exact absurd h (by simp)
      · next wsC cap aft hmac =>
        injection h with h'
        injection h' with h1 h2
        subst h2
        have h3 : aft.length ≤ rest2.length := matchAfterColon_len hmac
        have h4 : (':' :: rest2).length ≤ (s.drop (key.length + 2)).length := by
          rw [← hdrop, List.length_drop, List.length_drop]
          omega
        simp only [List.length_cons, List.length_drop] at h4
        omega
    · exact absurd h (by simp)
  · exact absurd h (by simp)

/-- Fuel-indexed scan of the global replacement of the repair regex for one
key (`str.replace(regex, callback)` with the `g` flag): scan left to right,
replacing each match and resuming after it, advancing one character on
failure.  Fuel at least the string length always suffices, since a match
consumes at least one character (`tryKeyMatch_len`). -/
def replOneGo (key : Str) : Nat → Str → Str
  | _, [] => []
  | 0, s => s
  | f + 1, c :: rest =>
    match tryKeyMatch key (c :: rest) with
    | some (rep, after) => rep ++ replOneGo key f after
    | none => c :: replOneGo key f rest

/-- Global replacement of the repair regex for one key. -/
def replOne (key : Str) (s : Str) : Str := replOneGo key s.length s

/-- The tracked field names of `fixUnquoted`, in source order. -/
def fixKeys : List Str :=
  [strLit "summary", strLit "title", strLit "description", strLit "relationships",
   strLit "name", strLit "role", strLit "content", strLit "id",
   strLit "original", strLit "suggestion", strLit "explanation"]

/-- The `fixUnquoted` repair of `cleanAndParseJson`: each tracked key's
regex replacement applied in order, with `id` skipped by the early return. -/
def fixUnquoted (s : Str) : Str :=
  fixKeys.foldl (fun acc k => if k = strLit "id" then acc else replOne k acc) s

/-- The `tryParse` helper followed by the `if (result)` truthiness test that
guards every `return result` in `cleanAndParseJson`: a parse failure gives
`null` (falsy), and a falsy parsed value also fails the guard. -/
def tryTruthy (s : Str) : Option Json :=
  match jsonParse s with
  | some v => if jsTruthy v then some v else none
  | none => none

/-- Substring extraction between the first `open` and last `close` character
followed by the two parse attempts (strategies 3 and 4 of
`cleanAndParseJson`). -/
def extractSpan (opn cls : Char) (clean : Str) : Option Json :=
  match idxOf? opn clean, lastIdxOf? cls clean with
  | some fb, some lb =>
    if fb < lb then
      let spanStr := subStr clean fb (lb + 1)
      match tryTruthy spanStr with
      | some v => some v
      | none => tryTruthy (fixUnquoted spanStr)
    else none
  | _, _ => none

/-- The output-repair pipeline `cleanAndParseJson` of
src/services/geminiService.ts (lines 69-120): empty input returns an empty
array; otherwise the markdown fences are stripped and the text trimmed, then
in order: direct parse, unquoted-value repair, outermost `[...]` extraction
(parse, then repair), outermost `{...}` extraction (parse, then repair); a
falsy parse result falls through to the next strategy; if all fail, the
thrown error message is returned in the `.error` case. -/
def cleanAndParseJson (text : Str) : Except Str Json :=
  if text = [] then .ok (.arr []) else
  let clean := trimStr (stripTicks (stripFenceJson text))
  match tryTruthy clean with
  | some v => .ok v
  | none =>
    match tryTruthy (fixUnquoted clean) with
    | some v => .ok v
    | none =>
      match extractSpan '[' ']' clean with
      | some v => .ok v
      | none =>
        match extractSpan '{' '}' clean with
        | some v => .ok v
        | none =>
          .error (strLit "JSON Parse Error: Could not parse or repair output. Raw: "
            ++ text.take 50 ++ strLit "...")

/-- A thrown JavaScript error: its `message` and `name` fields. -/
structure ErrInfo where
  message : Str
  name : Str
deriving DecidableEq

/-- The `const msg = error?.message || JSON.stringify(error)` of `withRetry`:
an empty message falls back to the stringified error (modelled by the
stringification of a plain object). -/
def msgOf (e : ErrInfo) : Str := if e.message = [] then strLit "\x7b\x7d" else e.message

/-- isRateLimit of the transport classifier in `withRetry`. -/
def isRateLimitMsg (m : Str) : Bool :=
  strHas (strLit "429") m || strHas (strLit "quota") m || strHas (strLit "RESOURCE_EXHAUSTED") m

/-- isServer of the transport classifier in `withRetry`. -/
def isServerMsg (m : Str) : Bool :=
  strHas (strLit "500") m || strHas (strLit "503") m || strHas (strLit "Overloaded") m

/-- isNetwork of the transport classifier (shared by `withRetry` and the
connection loop of `streamOpenAICompatible`). -/
def isNetworkMsg (m : Str) : Bool :=
  strHas (strLit "Failed to fetch") m || strHas (strLit "NetworkError") m
    || strHas (strLit "fetch failed") m

/-- isAborted of the transport classifier in `withRetry`. -/
def isAbortedErr (e : ErrInfo) : Bool :=
  strHas (strLit "Aborted") (msgOf e) || e.name = strLit "AbortError"

/-- isSafetyBlock of the transport classifier in `withRetry`. -/
def isSafetyBlockMsg (m : Str) : Bool :=
  strHas (strLit "data_inspection_failed") m || strHas (strLit "inappropriate content") m

/-- The `DOMException('Aborted', 'AbortError')` constructed by
`wrapWithSignal` (and by an aborted `fetch`). -/
def abortError : ErrInfo := ⟨strLit "Aborted", strLit "AbortError"⟩

/-- The error thrown by `throw lastError` when the loop body never ran
(`withRetry` with zero retries): `lastError` is still `undefined`. -/
def undefinedErr : ErrInfo := ⟨strLit "undefined", []⟩

/-- Observable outcome of one `withRetry` run: the settled value, how many
times the operation was invoked, the backoff delays slept between attempts
(in order), and the time at which the promise settles.  Time is the
event-loop timeline in milliseconds: an attempt is a function of its index
and its start time, returning its outcome and its duration. -/
structure RunResult (α : Type) where
  result : Except ErrInfo α
  calls : Nat
  delays : List Nat
  endTime : Nat

/-- The loop of `withRetry` (src/services/geminiService.ts lines 40-67):
`remaining` counts the iterations left of `for (let i = 0; i < retries; i++)`;
on an error classified aborted or safety-block the error is rethrown at once;
a retryable error with attempts remaining sleeps `baseDelay * 2^i` and
continues; any other error is rethrown. -/
def withRetryGo (op : Nat → Nat → Except ErrInfo α × Nat) (retries baseDelay : Nat) :
    Nat → Nat → Nat → Option ErrInfo → RunResult α
  | 0, _, t, last => ⟨.error (last.getD undefinedErr), 0, [], t⟩
  | remaining + 1, i, t, _ =>
    match op i t with
    | (.ok v, d) => ⟨.ok v, 1, [], t + d⟩
    | (.error e, d) =>
      let t' := t + d
      let msg := msgOf e
      if isAbortedErr e || isSafetyBlockMsg msg then ⟨.error e, 1, [], t'⟩
      else if (isRateLimitMsg msg || isServerMsg msg || isNetworkMsg msg)
          && decide (i < retries - 1) then
        let del := baseDelay * 2 ^ i
        let rest := withRetryGo op retries baseDelay remaining (i + 1) (t' + del) (some e)
        ⟨rest.result, rest.calls + 1, del :: rest.delays, rest.endTime⟩
      else ⟨.error e, 1, [], t'⟩

/-- `withRetry(operation, retries, baseDelay)` starting at time 0. -/
def withRetry (op : Nat → Nat → Except ErrInfo α × Nat) (retries baseDelay : Nat) :
    RunResult α :=
  withRetryGo op retries baseDelay retries 0 0 none

/-- The model of `wrapWithSignal` (lines 11-30) at the promise-timing level:
the returned promise settles with whichever of the abort event and the inner
promise comes first; an abort strictly before the inner settlement rejects
with the AbortError DOMException at the abort time. -/
def wrapWithSignal (inner : Except ErrInfo α × Nat) (abortAt : Option Nat) :
    Except ErrInfo α × Nat :=
  match abortAt with
  | none => inner
  | some a => if a < inner.2 then (.error abortError, a) else inner

/-- A fetch Response as far as the connection loop of
`streamOpenAICompatible` inspects it. -/
structure HttpResponse where
  ok : Bool
  status : Nat
  errorText : Str

mutual

/-- String coercion of a JSON value as used in a template literal. -/
def jsToStr : Json → Str
  | .null => strLit "null"
  | .bool true => strLit "true"
  | .bool false => strLit "false"
  | .num n => strLit n.repr
  | .str s => s
  | .arr xs => joinSep (strLit ",") (jsToStrList xs)
  | .obj _ => strLit "[object Object]"

/-- String coercion of each element of a JSON array. -/
def jsToStrList : List Json → List Str
  | [] => []
  | x :: r => jsToStr x :: jsToStrList r

end

/-- The `errorMsg` computed at lines 158-165 of `streamOpenAICompatible`:
`jsonErr.error?.message || jsonErr.message || errorText` when the error body
parses as JSON, the raw body otherwise.  (The safety-block `throw` inside
that `try` block is swallowed by its own empty `catch`, so only the
assignment survives.) -/
def errorMsgOf (errorText : Str) : Str :=
  match jsonParse errorText with
  | none => errorText
  | some j =>
    let pick : Option Json → Option Str := fun o =>
      match o with
      | some v => if jsTruthy v then some (jsToStr v) else none
      | none => none
    match pick ((objGet (strLit "error") j).bind (objGet (strLit "message"))) with
    | some m => m
    | none =>
      match pick (objGet (strLit "message") j) with
      | some m => m
      | none => errorText

/-- The Alibaba safety-filter message thrown by the streaming path. -/
def safetyMsg : Str :=
  strLit "Content blocked by Alibaba safety filters. Please adjust settings to be less explicit."

/-- The body of one `try` block of the connection loop (lines 147-176): a
thrown fetch error propagates; a non-ok response becomes a thrown error —
the safety message on a 400 with a data-inspection body, otherwise
`Provider API Error: <status> <errorMsg>` (the 429/5xx branch and the final
branch of the source throw the same message). -/
def streamTryBody (fr : Except ErrInfo HttpResponse) : Except ErrInfo Unit :=
  match fr with
  | .error e => .error e
  | .ok resp =>
    if resp.ok then .ok () else
    let errorMsg := errorMsgOf resp.errorText
    if resp.status = 400 && strHas (strLit "data_inspection_failed") resp.errorText then
      .error ⟨safetyMsg, strLit "Error"⟩
    else
      .error ⟨strLit "Provider API Error: " ++ strLit (Nat.repr resp.status)
        ++ strLit " " ++ errorMsg, strLit "Error"⟩

/-- The connection retry loop of `streamOpenAICompatible` (lines 146-185):
`for (let i = 0; i < 3; i++)`, rethrowing safety blocks at once, retrying
only network-classified failures while `i < 2` after sleeping
`2000 * 2^i` ms, and rethrowing anything else.  Returns (outcome, number of
fetch attempts, delays slept). -/
def streamConnGo (att : Nat → Except ErrInfo Unit) :
    Nat → Nat → Except ErrInfo Unit × Nat × List Nat
  | 0, _ => (.error ⟨strLit "Failed to get response body", strLit "Error"⟩, 0, [])
  | remaining + 1, i =>
    match att i with
    | .ok _ => (.ok (), 1, [])
    | .error e =>
      let msg := e.message
      if strHas (strLit "Content blocked by") msg then (.error e, 1, [])
      else if decide (i = 2) || !isNetworkMsg msg then (.error e, 1, [])
      else
        let rest := streamConnGo att remaining (i + 1)
        (rest.1, rest.2.1 + 1, (2000 * 2 ^ i) :: rest.2.2)

/-- The connection loop run from its start. -/
def streamConnect (att : Nat → Except ErrInfo Unit) : Except ErrInfo Unit × Nat × List Nat :=
  streamConnGo att 3 0

/-- The optional chain `json.choices?.[0]?.delta?.content`. -/
def contentOf (j : Json) : Option Json :=
  ((((objGet (strLit "choices") j).bind (idxGet 0)).bind
    (objGet (strLit "delta"))).bind (objGet (strLit "content")))

/-- One line of the SSE read loop (lines 201-221): trim; skip lines that do
not start with `data: `; skip the `[DONE]` sentinel; skip lines whose payload
does not parse; yield the extracted content when truthy.  (The usage callback
at lines 210-215 is effect-only and yields nothing.) -/
def lineYield (line : Str) : Option Json :=
  let trimmed := trimStr line
  if !strStarts (strLit "data: ") trimmed then none
  else
    let dataStr := trimmed.drop 6
    if dataStr = strLit "[DONE]" then none
    else
      match jsonParse dataStr with
      | none => none
      | some j =>
        match contentOf j with
        | some c => if jsTruthy c then some c else none
        | none => none

/-- One iteration of the read loop (lines 193-222): append the chunk to the
buffer, split on newlines, keep the last fragment as the new buffer
(`buffer = lines.pop() || ''`), and process the complete lines. -/
def decodeStep (buf chunk : Str) : Str × List Json :=
  let parts := splitNl (buf ++ chunk)
  ((parts.getLast?).getD [], parts.dropLast.filterMap lineYield)

/-- The whole read loop over a chunk sequence: the tokens yielded, in order.
Chunks are modelled after text decoding (the streaming `TextDecoder` makes
the UTF-8 chunk boundaries invisible); the unterminated final buffer is
discarded when the transport ends, as in the source. -/
def streamDecode (chunks : List Str) : List Json :=
  (chunks.foldl (fun st c =>
    let r := decodeStep st.1 c
    (r.1, st.2 ++ r.2)) (([] : Str), ([] : List Json))).2

/-- The provider enumeration of src/types.ts. -/
inductive Provider where
  | gemini : Provider
  | alibaba : Provider
  | volcano : Provider
  | custom : Provider
deriving DecidableEq

/-- The slice of NovelSettings (src/types.ts) that the configuration gates
and the outline post-processing read.  Absent optional strings are modelled
by the empty string, which is exactly what the source's `|| ''` defaulting
and truthiness checks observe. -/
structure NovelSettings where
  title : Str
  premise : Str
  novelType : Str
  chapterCount : Nat
  provider : Provider
  baseUrl : Str
  apiKey : Str
  modelName : Str

/-- `getBaseUrl` (lines 328-333): fixed endpoints for the named providers,
`settings.baseUrl || ""` for the custom provider, `""` otherwise. -/
def getBaseUrl (s : NovelSettings) : Str :=
  if s.provider = .alibaba then
    strLit "https://dashscope.aliyuncs.com/compatible-mode/v1/chat/completions"
  else if s.provider = .volcano then
    strLit "https://ark.cn-beijing.volces.com/api/v3/chat/completions"
  else if s.provider = .custom then
    (if s.baseUrl ≠ [] then s.baseUrl else [])
  else []

/-- The model-name defaulting repeated in every exported operation:
`settings.modelName || (settings.provider === 'alibaba' ? 'qwen-plus' : '')`. -/
def resolvedModel (s : NovelSettings) : Str :=
  if s.modelName ≠ [] then s.modelName
  else if s.provider = .alibaba then strLit "qwen-plus" else []

/-- What an exported operation does before any network call: take the Gemini
path, throw a missing-configuration error, return a fallback value, or
proceed to the HTTP call with the resolved url, key and model. -/
inductive GateOutcome (α : Type) where
  | geminiPath : GateOutcome α
  | throwMissing : Str → GateOutcome α
  | fallback : α → GateOutcome α
  | proceed : Str → Str → Str → GateOutcome α
deriving DecidableEq

/-- The non-Gemini configuration check repeated in every exported operation:
`if (!url || !apiKey || !model)` followed by the operation's own
missing-configuration behaviour. -/
def configGate (s : NovelSettings) (onMissing : GateOutcome α) : GateOutcome α :=
  if s.provider = .gemini then .geminiPath
  else
    let url := getBaseUrl s
    let apiKey := s.apiKey
    let model := resolvedModel s
    if url = [] || apiKey = [] || model = [] then onMissing
    else .proceed url apiKey model

/-- expandText (line 394): throws "Missing provider configuration". -/
def expandTextGate (s : NovelSettings) : GateOutcome Str :=
  configGate s (.throwMissing (strLit "Missing provider configuration"))

/-- generateCharacterConcepts (line 423): throws "Missing config". -/
def generateCharacterConceptsGate (s : NovelSettings) : GateOutcome Str :=
  configGate s (.throwMissing (strLit "Missing config"))

/-- generateSingleCharacter (line 462): throws "Missing config". -/
def generateSingleCharacterGate (s : NovelSettings) : GateOutcome Str :=
  configGate s (.throwMissing (strLit "Missing config"))

/-- generateWorldSetting (line 505): throws "Missing config". -/
def generateWorldSettingGate (s : NovelSettings) : GateOutcome Str :=
  configGate s (.throwMissing (strLit "Missing config"))

/-- generatePremise (line 540): throws "Missing config". -/
def generatePremiseGate (s : NovelSettings) : GateOutcome Str :=
  configGate s (.throwMissing (strLit "Missing config"))

/-- summarizeChapter (line 566): returns "" instead of throwing. -/
def summarizeChapterGate (s : NovelSettings) : GateOutcome Str :=
  configGate s (.fallback [])

/-- generateOutline (line 664): throws "Missing config". -/
def generateOutlineGate (s : NovelSettings) : GateOutcome Str :=
  configGate s (.throwMissing (strLit "Missing config"))

/-- generateCharacters (line 744): throws "Missing config". -/
def generateCharactersGate (s : NovelSettings) : GateOutcome Str :=
  configGate s (.throwMissing (strLit "Missing config"))

/-- checkConsistency (line 771): returns "Skipped" instead of throwing. -/
def checkConsistencyGate (s : NovelSettings) : GateOutcome Str :=
  configGate s (.fallback (strLit "Skipped"))

/-- fixChapterConsistency (line 796): throws "Missing config". -/
def fixChapterConsistencyGate (s : NovelSettings) : GateOutcome Str :=
  configGate s (.throwMissing (strLit "Missing config"))

/-- checkGrammar (line 822): returns the empty array instead of throwing. -/
def checkGrammarGate (s : NovelSettings) : GateOutcome (List Json) :=
  configGate s (.fallback [])

/-- autoCorrectGrammar (line 846): throws "Missing config". -/
def autoCorrectGrammarGate (s : NovelSettings) : GateOutcome Str :=
  configGate s (.throwMissing (strLit "Missing config"))

/-- continueWriting (line 881): throws "Missing config". -/
def continueWritingGate (s : NovelSettings) : GateOutcome Str :=
  configGate s (.throwMissing (strLit "Missing config"))

/-- generateChapterStream (line 929): throws "Missing config". -/
def generateChapterStreamGate (s : NovelSettings) : GateOutcome Str :=
  configGate s (.throwMissing (strLit "Missing config"))

/-- One outline entry as post-processed by `generateOutline`. -/
structure OutlineChapter where
  id : Int
  title : Str
  summary : Str
deriving DecidableEq

/-- `settings.novelType === 'short' || settings.chapterCount === 1`. -/
def isOneShot (s : NovelSettings) : Bool :=
  s.novelType = strLit "short" || s.chapterCount = 1

/-- The one-shot adjustment of `generateOutline` (lines 650-656 and 668-674,
identical in both provider paths): several chapters are merged into one
whose summary joins the summaries with " -> "; a single chapter gets id 1;
an empty array is replaced by one chapter built from the title and the
premise. -/
def adjustOneShot (s : NovelSettings) (result : List OutlineChapter) : List OutlineChapter :=
  if result.length > 1 then
    [⟨1, s.title, joinSep (strLit " -> ") (result.map (·.summary))⟩]
  else
    match result with
    | [c] => [{ c with id := 1 }]
    | _ => [⟨1, s.title, s.premise⟩]

/-- The post-processing `generateOutline` applies to the repaired model
output when it is an array of chapters. -/
def generateOutlinePost (s : NovelSettings) (result : List OutlineChapter) :
    List OutlineChapter :=
  if isOneShot s then adjustOneShot s result else result

/-- A JSON value wrapped in a markdown code fence with leading and trailing
prose, the shape named by the round-trip property. -/
def fenceWrap (p1 s p2 : Str) : Str :=
  p1 ++ strLit "```json" ++ '\n' :: (s ++ '\n' :: (strLit "```" ++ '\n' :: p2))

/-- Whether a yielded token is a string fragment. -/
def tokenIsStr : Json → Bool
  | .str _ => true
  | _ => false

/-- SPEC-SIDE definition, transcribed from the specification's words rather
than from the source: the `choices[0].delta.content` field of one SSE data
record, when the record carries a string content.  Compared against the
source-derived `lineYield` in the streaming refinement claim. -/
def specRecordContent (line : Str) : Option Str :=
  let t := trimStr line
  if strStarts (strLit "data: ") t then
    match jsonParse (t.drop 6) with
    | some j =>
      match contentOf j with
      | some (.str c) => some c
      | _ => none
    | none => none
  else none

/-- SPEC-SIDE definition: the concatenation of all `delta.content` fields of
the SSE data records contained in the chunk sequence, in arrival order
(a record is a complete, newline-terminated line of the concatenated
transport text). -/
def specConcatContents (chunks : List Str) : Str :=
  (((splitNl chunks.flatten).dropLast).filterMap specRecordContent).flatten

/-! Whitespace and trim lemmas. -/

theorem wsChar_isDigit_false {c : Char} (h : wsChar c = true) : c.isDigit = false := by
  simp only [wsChar, Bool.or_eq_true, decide_eq_true_eq] at h
  rcases h with ((h | h) | h) | h <;> subst h <;> rfl

theorem skipWs_cons_of_not {c : Char} {r : Str} (h : wsChar c = false) :
    skipWs (c :: r) = c :: r := by
  simp [skipWs, h]

theorem skipWs_nil_of_all {s : Str} (h : ∀ c ∈ s, wsChar c = true) : skipWs s = [] := by
  induction s with
  | nil => rfl
  | cons c r ih =>
    simp only [skipWs, h c (by simp), if_true]
    exact ih fun d hd => h d (by simp [hd])

theorem skipWs_append_of_all {a : Str} (b : Str) (h : ∀ c ∈ a, wsChar c = true) :
    skipWs (a ++ b) = skipWs b := by
  induction a with
  | nil => rfl
  | cons c r ih =>
    simp only [List.cons_append, skipWs, h c (by simp), if_true]
    exact ih fun d hd => h d (by simp [hd])

theorem skipWs_append_of_head {a : Str} {c : Char} {r : Str} (b : Str)
    (h : skipWs a = c :: r) : skipWs (a ++ b) = c :: (r ++ b) := by
  induction a with
  | nil => simp [skipWs] at h
  | cons d t ih =>
    simp only [skipWs] at h ⊢
    by_cases hd : wsChar d = true
    · simp only [hd, if_true] at h ⊢
      exact ih h
    · simp only [Bool.not_eq_true] at hd
      simp only [hd] at h ⊢
      simp only [Bool.false_eq_true, if_false] at h ⊢
      injection h with h1 h2
      subst h1; subst h2
      rfl

theorem skipWs_decomp (s : Str) :
    ∃ a, s = a ++ skipWs s ∧ ∀ c ∈ a, wsChar c = true := by
  induction s with
  | nil => exact ⟨[], rfl, by simp⟩
  | cons c r ih =>
    by_cases hc : wsChar c = true
    · obtain ⟨a, ha, hall⟩ := ih
      refine ⟨c :: a, ?_, ?_⟩
      · simp only [skipWs, hc, if_true, List.cons_append]
        exact congrArg (c :: ·) ha
      · intro d hd
        rw [List.mem_cons] at hd
        rcases hd with rfl | hd
        · exact hc
        · exact hall d hd
    · simp only [Bool.not_eq_true] at hc
      refine ⟨[], ?_, by simp⟩
      simp [skipWs, hc]

theorem skipWs_all_of_nil {s : Str} (h : skipWs s = []) : ∀ c ∈ s, wsChar c = true := by
  induction s with
  | nil => simp
  | cons c r ih =>
    simp only [skipWs] at h
    by_cases hc : wsChar c = true
    · intro d hd
      rw [List.mem_cons] at hd
      rcases hd with rfl | hd
      · exact hc
      · exact ih (by simpa [hc] using h) d hd
    · simp only [Bool.not_eq_true] at hc
      simp [hc] at h

theorem trimL_eq_self_of_head {c : Char} {r : Str} (h : wsChar c = false) :
    trimL (c :: r) = c :: r := skipWs_cons_of_not h

theorem trimR_eq_self_of_last {s : Str} {c : Char} (hlast : s.getLast? = some c)
    (h : wsChar c = false) : trimR s = s := by
  have hrev : s.reverse.head? = some c := by
    rw [List.head?_reverse]; exact hlast
  rcases hr : s.reverse with _ | ⟨d, t⟩
  · rw [hr] at hrev; simp at hrev
  · rw [hr] at hrev
    injection hrev with hrev
    subst hrev
    simp only [trimR, hr, skipWs_cons_of_not h]
    rw [← hr, List.reverse_reverse]

theorem trimR_decomp (s : Str) :
    ∃ b, s = trimR s ++ b ∧ ∀ c ∈ b, wsChar c = true := by
  obtain ⟨a, ha, hall⟩ := skipWs_decomp s.reverse
  refine ⟨a.reverse, ?_, fun c hc => hall c (by simpa using hc)⟩
  conv_lhs => rw [← List.reverse_reverse s, ha]
  simp [trimR]

theorem trimStr_decomp (s : Str) :
    ∃ a b, s = a ++ trimStr s ++ b ∧ (∀ c ∈ a, wsChar c = true) ∧
      (∀ c ∈ b, wsChar c = true) := by
  obtain ⟨a, ha, halla⟩ := skipWs_decomp s
  obtain ⟨b, hb, hallb⟩ := trimR_decomp (trimL s)
  refine ⟨a, b, ?_, halla, hallb⟩
  have h1 : s = a ++ trimL s := ha
  conv_lhs => rw [h1, hb]
  simp [trimStr, List.append_assoc]

/-! Fuel irrelevance and unfolding equations for the three scanners. -/

theorem stripFenceJsonGo_fuel :
    ∀ f g s, s.length ≤ f → s.length ≤ g → stripFenceJsonGo f s = stripFenceJsonGo g s := by
  intro f
  induction f with
  | zero =>
    intro g s hf _
    have : s = [] := List.length_eq_zero.mp (Nat.le_zero.mp hf)
    subst this
    cases g <;> rfl
  | succ f ih =>
    intro g s hf hg
    cases s with
    | nil => cases g <;> rfl
    | cons c rest =>
      cases g with
      | zero => simp at hg
      | succ g =>
        simp only [stripFenceJsonGo]
        simp only [List.length_cons] at hf hg
        split
        · exact ih g _ (by simp only [List.length_drop, List.length_cons]; omega)
            (by simp only [List.length_drop, List.length_cons]; omega)
        · exact congrArg (c :: ·) (ih g rest (by omega) (by omega))

theorem stripFenceJson_cons (c : Char) (rest : Str) :
    stripFenceJson (c :: rest) =
      if isFenceJsonAt (c :: rest) then stripFenceJson ((c :: rest).drop 7)
      else c :: stripFenceJson rest := by
  simp only [stripFenceJson, List.length_cons, stripFenceJsonGo]
  split
  · exact stripFenceJsonGo_fuel _ _ _ (by simp [List.length_drop]) (by simp)
  · exact congrArg (c :: ·) (stripFenceJsonGo_fuel _ _ _ (by simp) (by simp))

theorem stripTicksGo_fuel :
    ∀ f g s, s.length ≤ f → s.length ≤ g → stripTicksGo f s = stripTicksGo g s := by
  intro f
  induction f with
  | zero =>
    intro g s hf _
    have : s = [] := List.length_eq_zero.mp (Nat.le_zero.mp hf)
    subst this
    cases g <;> rfl
  | succ f ih =>
    intro g s hf hg
    cases s with
    | nil => cases g <;> rfl
    | cons c rest =>
      cases g with
      | zero => simp at hg
      | succ g =>
        simp only [stripTicksGo]
        simp only [List.length_cons] at hf hg
        split
        · exact ih g _ (by simp only [List.length_drop, List.length_cons]; omega)
            (by simp only [List.length_drop, List.length_cons]; omega)
        · exact congrArg (c :: ·) (ih g rest (by omega) (by omega))

theorem stripTicks_cons (c : Char) (rest : Str) :
    stripTicks (c :: rest) =
      if strStarts (strLit "```") (c :: rest) then stripTicks ((c :: rest).drop 3)
      else c :: stripTicks rest := by
  simp only [stripTicks, List.length_cons, stripTicksGo]
  split
  · exact stripTicksGo_fuel _ _ _ (by simp [List.length_drop]) (by simp)
  · exact congrArg (c :: ·) (stripTicksGo_fuel _ _ _ (by simp) (by simp))

theorem replOneGo_fuel (key : Str) :
    ∀ f g s, s.length ≤ f → s.length ≤ g → replOneGo key f s = replOneGo key g s := by
  intro f
  induction f with
  | zero =>
    intro g s hf _
    have : s = [] := List.length_eq_zero.mp (Nat.le_zero.mp hf)
    subst this
    cases g <;> rfl
  | succ f ih =>
    intro g s hf hg
    cases s with
    | nil => cases g <;> rfl
    | cons c rest =>
      cases g with
      | zero => simp at hg
      | succ g =>
        simp only [replOneGo]
        simp only [List.length_cons] at hf hg
        rcases htm : tryKeyMatch key (c :: rest) with _ | ⟨rep, after⟩
        · exact congrArg (c :: ·) (ih g rest (by omega) (by omega))
        · have hlt := tryKeyMatch_len htm
          simp only [List.length_cons] at hlt
          exact congrArg (rep ++ ·) (ih g after (by omega) (by omega))

theorem replOne_cons (key : Str) (c : Char) (rest : Str) :
    replOne key (c :: rest) =
      match tryKeyMatch key (c :: rest) with
      | some (rep, after) => rep ++ replOne key after
      | none => c :: replOne key rest := by
  simp only [replOne, List.length_cons, replOneGo]
  rcases htm : tryKeyMatch key (c :: rest) with _ | ⟨rep, after⟩
  · exact congrArg (c :: ·) (replOneGo_fuel key _ _ _ (by simp) (by simp))
  · have hlt := tryKeyMatch_len htm
    simp only [List.length_cons] at hlt
    exact congrArg (rep ++ ·) (replOneGo_fuel key _ _ after (by omega) (by simp))

/-! Congruence lemmas for the scanners: characters that cannot start a match
pass through unchanged, and a fence is consumed whole. -/

theorem isFenceJsonAt_false_of_head {c : Char} (rest : Str) (h : c ≠ '`') :
    isFenceJsonAt (c :: rest) = false := by
  simp only [isFenceJsonAt, strLit]
  have : strStarts ('`' :: '`' :: '`' :: []) (c :: rest) = false := by
    simp only [strStarts, Bool.and_eq_false_iff]
    left
    simpa [eq_comm] using h
  simp [show "```".data = ['`', '`', '`'] from rfl, this]

theorem stripFenceJson_of_no_tick {s : Str} (h : '`' ∉ s) : stripFenceJson s = s := by
  induction s with
  | nil => rfl
  | cons c rest ih =>
    have hc : c ≠ '`' := fun hc => h (hc ▸ List.mem_cons_self c rest)
    rw [stripFenceJson_cons, isFenceJsonAt_false_of_head rest hc]
    simp only [Bool.false_eq_true, if_false]
    exact congrArg (c :: ·) (ih fun hm => h (List.mem_cons_of_mem c hm))

theorem stripFenceJson_append_of_no_tick {p : Str} (x : Str) (h : '`' ∉ p) :
    stripFenceJson (p ++ x) = p ++ stripFenceJson x := by
  induction p with
  | nil => rfl
  | cons c p' ih =>
    have hc : c ≠ '`' := fun hc => h (hc ▸ List.mem_cons_self c p')
    rw [List.cons_append, stripFenceJson_cons, isFenceJsonAt_false_of_head _ hc]
    simp only [Bool.false_eq_true, if_false]
    exact congrArg (c :: ·) (ih fun hm => h (List.mem_cons_of_mem c hm))

theorem stripFenceJson_fence (x : Str) :
    stripFenceJson ('`' :: '`' :: '`' :: 'j' :: 's' :: 'o' :: 'n' :: x) =
      stripFenceJson x := by
  rw [stripFenceJson_cons]
  have hf : isFenceJsonAt ('`' :: '`' :: '`' :: 'j' :: 's' :: 'o' :: 'n' :: x) = true := by
    simp [isFenceJsonAt, fenceTag, strStarts, strLit, show "```".data = ['`', '`', '`'] from rfl]
  rw [hf]
  simp

theorem stripFenceJson_closing {y : Str} (hy : '`' ∉ y) :
    stripFenceJson ('`' :: '`' :: '`' :: '\n' :: y) = '`' :: '`' :: '`' :: '\n' :: y := by
  have h0 : isFenceJsonAt ('`' :: '`' :: '`' :: '\n' :: y) = false := by
    simp [isFenceJsonAt, fenceTag, strStarts, strLit, show "```".data = ['`', '`', '`'] from rfl]
  have h1 : isFenceJsonAt ('`' :: '`' :: '\n' :: y) = false := by
    simp [isFenceJsonAt, strStarts, strLit, show "```".data = ['`', '`', '`'] from rfl]
  have h2 : isFenceJsonAt ('`' :: '\n' :: y) = false := by
    simp [isFenceJsonAt, strStarts, strLit, show "```".data = ['`', '`', '`'] from rfl]
  rw [stripFenceJson_cons, h0]
  simp only [Bool.false_eq_true, if_false]
  rw [stripFenceJson_cons, h1]
  simp only [Bool.false_eq_true, if_false]
  rw [stripFenceJson_cons, h2]
  simp only [Bool.false_eq_true, if_false]
  rw [stripFenceJson_of_no_tick (by simpa using hy)]

theorem strStarts_ticks_false_of_head {c : Char} (rest : Str) (h : c ≠ '`') :
    strStarts (strLit "```") (c :: rest) = false := by
  simp only [strLit, show "```".data = ['`', '`', '`'] from rfl]
  simp only [strStarts, Bool.and_eq_false_iff]
  left
  simpa [eq_comm] using h

theorem stripTicks_of_no_tick {s : Str} (h : '`' ∉ s) : stripTicks s = s := by
  induction s with
  | nil => rfl
  | cons c rest ih =>
    have hc : c ≠ '`' := fun hc => h (hc ▸ List.mem_cons_self c rest)
    rw [stripTicks_cons, strStarts_ticks_false_of_head rest hc]
    simp only [Bool.false_eq_true, if_false]
    exact congrArg (c :: ·) (ih fun hm => h (List.mem_cons_of_mem c hm))

theorem stripTicks_append_of_no_tick {p : Str} (x : Str) (h : '`' ∉ p) :
    stripTicks (p ++ x) = p ++ stripTicks x := by
  induction p with
  | nil => rfl
  | cons c p' ih =>
    have hc : c ≠ '`' := fun hc => h (hc ▸ List.mem_cons_self c p')
    rw [List.cons_append, stripTicks_cons, strStarts_ticks_false_of_head _ hc]
    simp only [Bool.false_eq_true, if_false]
    exact congrArg (c :: ·) (ih fun hm => h (List.mem_cons_of_mem c hm))

theorem stripTicks_ticks (x : Str) :
    stripTicks ('`' :: '`' :: '`' :: x) = stripTicks x := by
  rw [stripTicks_cons]
  have hf : strStarts (strLit "```") ('`' :: '`' :: '`' :: x) = true := by
    simp [strStarts, strLit, show "```".data = ['`', '`', '`'] from rfl]
  rw [hf]
  simp

theorem tryKeyMatch_none_of_head {c : Char} (key s : Str) (h : c ≠ '"') :
    tryKeyMatch key (c :: s) = none := by
  simp only [tryKeyMatch, keyQuoted]
  have : strStarts ('"' :: (key ++ ['"'])) (c :: s) = false := by
    simp only [strStarts, Bool.and_eq_false_iff]
    left
    simpa [eq_comm] using h
  simp [this]

theorem replOne_append_of_no_quote {p : Str} (key x : Str) (h : '"' ∉ p) :
    replOne key (p ++ x) = p ++ replOne key x := by
  induction p with
  | nil => rfl
  | cons c p' ih =>
    have hc : c ≠ '"' := fun hc => h (hc ▸ List.mem_cons_self c p')
    rw [List.cons_append, replOne_cons, tryKeyMatch_none_of_head key _ hc]
    exact congrArg (c :: ·) (ih fun hm => h (List.mem_cons_of_mem c hm))

theorem fixUnquoted_append_of_no_quote {p : Str} (x : Str) (h : '"' ∉ p) :
    fixUnquoted (p ++ x) = p ++ fixUnquoted x := by
  simp only [fixUnquoted]
  induction fixKeys generalizing x with
  | nil => rfl
  | cons k ks ih =>
    simp only [List.foldl_cons]
    by_cases hk : k = strLit "id"
    · simp only [hk, if_true]
      exact ih x
    · simp only [hk, if_false]
      rw [replOne_append_of_no_quote k x h]
      exact ih (replOne k x)

theorem fixUnquoted_cons_of_ne_quote {c : Char} (x : Str) (h : c ≠ '"') :
    fixUnquoted (c :: x) = c :: fixUnquoted x := by
  have h0 := fixUnquoted_append_of_no_quote (p := [c]) x
    (by intro hm; rw [List.mem_singleton] at hm; exact h hm.symm)
  simpa using h0

/-! Single-step unfolding equations for the parser at fuel `f + 1`, given the
shape of the whitespace-stripped input.  Stated at one successor so that the
recursive occurrences carry the variable fuel `f`, and split by branch so
that no `match` appears in a statement. -/

theorem pVal_nil {f : Nat} {s : Str} (hsw : skipWs s = []) : pVal (f + 1) s = none := by
  simp [pVal, hsw]

theorem pVal_str {f : Nat} {s r : Str} (hsw : skipWs s = '"' :: r) :
    pVal (f + 1) s = (pStrBody r).map (fun p => (Json.str p.1, p.2)) := by
  simp [pVal, hsw]

theorem pVal_arr {f : Nat} {s r : Str} (hsw : skipWs s = '[' :: r) :
    pVal (f + 1) s = pItems f r := by
  simp [pVal, hsw]

theorem pVal_obj {f : Nat} {s r : Str} (hsw : skipWs s = '{' :: r) :
    pVal (f + 1) s = pFields f r := by
  simp [pVal, hsw]

/-- All branches of `pVal` other than arrays and objects read no fuel. -/
theorem pVal_fuelfree {f g : Nat} {s : Str} {c : Char} {r : Str} (hsw : skipWs s = c :: r)
    (h2 : c ≠ '[') (h3 : c ≠ '{') : pVal (f + 1) s = pVal (g + 1) s := by
  simp only [pVal, hsw]
  by_cases h1 : c = '"'
  · rw [if_pos h1, if_pos h1]
  · rw [if_neg h1, if_neg h1, if_neg h2, if_neg h2, if_neg h3, if_neg h3]

theorem pItems_nil {f : Nat} {s : Str} (hsw : skipWs s = []) : pItems (f + 1) s = none := by
  simp [pItems, hsw]

theorem pItems_close {f : Nat} {s r : Str} (hsw : skipWs s = ']' :: r) :
    pItems (f + 1) s = some (Json.arr [], r) := by
  simp [pItems, hsw]

theorem pItems_val_none {f : Nat} {s : Str} {c : Char} {r : Str} (hsw : skipWs s = c :: r)
    (h1 : c ≠ ']') (hv : pVal f (c :: r) = none) : pItems (f + 1) s = none := by
  simp [pItems, hsw, if_neg h1, hv]

theorem pItems_val_some {f : Nat} {s : Str} {c : Char} {r : Str} {v : Json} {rem : Str}
    (hsw : skipWs s = c :: r) (h1 : c ≠ ']') (hv : pVal f (c :: r) = some (v, rem)) :
    pItems (f + 1) s = (pMore f rem).map (consArr v) := by
  simp [pItems, hsw, if_neg h1, hv]

theorem pMore_nil {f : Nat} {s : Str} (hsw : skipWs s = []) : pMore (f + 1) s = none := by
  simp [pMore, hsw]

/-- The close-bracket and junk branches of `pMore` read no fuel. -/
theorem pMore_fuelfree {f g : Nat} {s : Str} {c : Char} {r : Str} (hsw : skipWs s = c :: r)
    (h2 : c ≠ ',') : pMore (f + 1) s = pMore (g + 1) s := by
  simp only [pMore, hsw]
  by_cases h1 : c = ']'
  · rw [if_pos h1, if_pos h1]
  · rw [if_neg h1, if_neg h1, if_neg h2, if_neg h2]

theorem pMore_close {f : Nat} {s r : Str} (hsw : skipWs s = ']' :: r) :
    pMore (f + 1) s = some (Json.arr [], r) := by
  simp [pMore, hsw]

theorem pMore_comma_none {f : Nat} {s r : Str} (hsw : skipWs s = ',' :: r)
    (hv : pVal f r = none) : pMore (f + 1) s = none := by
  simp [pMore, hsw, hv]

theorem pMore_comma_some {f : Nat} {s r : Str} {v : Json} {rem : Str}
    (hsw : skipWs s = ',' :: r) (hv : pVal f r = some (v, rem)) :
    pMore (f + 1) s = (pMore f rem).map (consArr v) := by
  simp [pMore, hsw, hv]

theorem pFields_nil {f : Nat} {s : Str} (hsw : skipWs s = []) : pFields (f + 1) s = none := by
  simp [pFields, hsw]

theorem pFields_close {f : Nat} {s r : Str} (hsw : skipWs s = '}' :: r) :
    pFields (f + 1) s = some (Json.obj [], r) := by
  simp [pFields, hsw]

theorem pFields_val_none {f : Nat} {s : Str} {c : Char} {r : Str} (hsw : skipWs s = c :: r)
    (h1 : c ≠ '}') (hv : pField f (c :: r) = none) : pFields (f + 1) s = none := by
  simp [pFields, hsw, if_neg h1, hv]

theorem pFields_val_some {f : Nat} {s : Str} {c : Char} {r : Str} {kv : Str × Json}
    {rem : Str} (hsw : skipWs s = c :: r) (h1 : c ≠ '}')
    (hv : pField f (c :: r) = some (kv, rem)) :
    pFields (f + 1) s = (pFMore f rem).map (consObj kv) := by
  simp [pFields, hsw, if_neg h1, hv]

theorem pFMore_nil {f : Nat} {s : Str} (hsw : skipWs s = []) : pFMore (f + 1) s = none := by
  simp [pFMore, hsw]

/-- The close-brace and junk branches of `pFMore` read no fuel. -/
theorem pFMore_fuelfree {f g : Nat} {s : Str} {c : Char} {r : Str} (hsw : skipWs s = c :: r)
    (h2 : c ≠ ',') : pFMore (f + 1) s = pFMore (g + 1) s := by
  simp only [pFMore, hsw]
  by_cases h1 : c = '}'
  · rw [if_pos h1, if_pos h1]
  · rw [if_neg h1, if_neg h1, if_neg h2, if_neg h2]

theorem pFMore_close {f : Nat} {s r : Str} (hsw : skipWs s = '}' :: r) :
    pFMore (f + 1) s = some (Json.obj [], r) := by
  simp [pFMore, hsw]

theorem pFMore_comma_none {f : Nat} {s r : Str} (hsw : skipWs s = ',' :: r)
    (hv : pField f r = none) : pFMore (f + 1) s = none := by
  simp [pFMore, hsw, hv]

theorem pFMore_comma_some {f : Nat} {s r : Str} {kv : Str × Json} {rem : Str}
    (hsw : skipWs s = ',' :: r) (hv : pField f r = some (kv, rem)) :
    pFMore (f + 1) s = (pFMore f rem).map (consObj kv) := by
  simp [pFMore, hsw, hv]

theorem pField_nil {f : Nat} {s : Str} (hsw : skipWs s = []) : pField (f + 1) s = none := by
  simp [pField, hsw]

theorem pField_head_none {f : Nat} {s : Str} {c : Char} {r : Str} (hsw : skipWs s = c :: r)
    (h1 : c ≠ '"') : pField (f + 1) s = none := by
  simp [pField, hsw, if_neg h1]

theorem pField_body_none {f : Nat} {s r : Str} (hsw : skipWs s = '"' :: r)
    (hb : pStrBody r = none) : pField (f + 1) s = none := by
  simp [pField, hsw, hb]

theorem pField_colon_nil {f : Nat} {s r : Str} {k rem : Str} (hsw : skipWs s = '"' :: r)
    (hb : pStrBody r = some (k, rem)) (hsw2 : skipWs rem = []) :
    pField (f + 1) s = none := by
  simp [pField, hsw, hb, hsw2]

theorem pField_colon_bad {f : Nat} {s r : Str} {k rem : Str} {d : Char} {r2 : Str}
    (hsw : skipWs s = '"' :: r) (hb : pStrBody r = some (k, rem))
    (hsw2 : skipWs rem = d :: r2) (hd : d ≠ ':') : pField (f + 1) s = none := by
  simp [pField, hsw, hb, hsw2, if_neg hd]

theorem pField_colon {f : Nat} {s r : Str} {k rem : Str} {r2 : Str}
    (hsw : skipWs s = '"' :: r) (hb : pStrBody r = some (k, rem))
    (hsw2 : skipWs rem = ':' :: r2) :
    pField (f + 1) s = (pVal f r2).map (fun p => ((k, p.1), p.2)) := by
  simp [pField, hsw, hb, hsw2]

theorem pVal_num {f : Nat} {s : Str} {c : Char} {r : Str} (hsw : skipWs s = c :: r)
    (h1 : c ≠ '"') (h2 : c ≠ '[') (h3 : c ≠ '{') (h4 : c ≠ 'n') (h5 : c ≠ 't')
    (h6 : c ≠ 'f') : pVal (f + 1) s = pNum (c :: r) := by
  simp only [pVal, hsw]
  rw [if_neg h1, if_neg h2, if_neg h3, if_neg h4, if_neg h5, if_neg h6]

theorem pVal_null_eval {f : Nat} {s : Str} {r2 : Str}
    (hsw : skipWs s = 'n' :: 'u' :: 'l' :: 'l' :: r2) :
    pVal (f + 1) s = some (Json.null, r2) := by
  simp [pVal, hsw]

theorem pVal_null_inv {f : Nat} {s : Str} {r : Str} {v : Json} {rem : Str}
    (hsw : skipWs s = 'n' :: r) (h : pVal (f + 1) s = some (v, rem)) :
    v = Json.null ∧ r = 'u' :: 'l' :: 'l' :: rem := by
  simp only [pVal, hsw] at h
  rw [if_neg (by decide), if_neg (by decide), if_neg (by decide), if_pos trivial] at h
  split at h
  · injection h with h'
    injection h' with hv hr
    subst hv
    subst hr
    exact ⟨rfl, rfl⟩
  · exact absurd h (by simp)

theorem pVal_true_eval {f : Nat} {s : Str} {r2 : Str}
    (hsw : skipWs s = 't' :: 'r' :: 'u' :: 'e' :: r2) :
    pVal (f + 1) s = some (Json.bool true, r2) := by
  simp [pVal, hsw]

theorem pVal_true_inv {f : Nat} {s : Str} {r : Str} {v : Json} {rem : Str}
    (hsw : skipWs s = 't' :: r) (h : pVal (f + 1) s = some (v, rem)) :
    v = Json.bool true ∧ r = 'r' :: 'u' :: 'e' :: rem := by
  simp only [pVal, hsw] at h
  rw [if_neg (by decide), if_neg (by decide), if_neg (by decide), if_neg (by decide),
    if_pos trivial] at h
  split at h
  · injection h with h'
    injection h' with hv hr
    subst hv
    subst hr
    exact ⟨rfl, rfl⟩
  · exact absurd h (by simp)

theorem pVal_false_eval {f : Nat} {s : Str} {r2 : Str}
    (hsw : skipWs s = 'f' :: 'a' :: 'l' :: 's' :: 'e' :: r2) :
    pVal (f + 1) s = some (Json.bool false, r2) := by
  simp [pVal, hsw]

theorem pVal_false_inv {f : Nat} {s : Str} {r : Str} {v : Json} {rem : Str}
    (hsw : skipWs s = 'f' :: r) (h : pVal (f + 1) s = some (v, rem)) :
    v = Json.bool false ∧ r = 'a' :: 'l' :: 's' :: 'e' :: rem := by
  simp only [pVal, hsw] at h
  rw [if_neg (by decide), if_neg (by decide), if_neg (by decide), if_neg (by decide),
    if_neg (by decide), if_pos trivial] at h
  split at h
  · injection h with h'
    injection h' with hv hr
    subst hv
    subst hr
    exact ⟨rfl, rfl⟩
  · exact absurd h (by simp)

theorem pMore_junk {f : Nat} {s : Str} {c : Char} {r : Str} (hsw : skipWs s = c :: r)
    (h1 : c ≠ ']') (h2 : c ≠ ',') : pMore (f + 1) s = none := by
  simp [pMore, hsw, if_neg h1, if_neg h2]

theorem pFMore_junk {f : Nat} {s : Str} {c : Char} {r : Str} (hsw : skipWs s = c :: r)
    (h1 : c ≠ '}') (h2 : c ≠ ',') : pFMore (f + 1) s = none := by
  simp [pFMore, hsw, if_neg h1, if_neg h2]

/-! Parser metatheory: success is monotone in the fuel. -/

theorem pMono : ∀ f,
    (∀ s x, pVal f s = some x → pVal (f + 1) s = some x) ∧
    (∀ s x, pItems f s = some x → pItems (f + 1) s = some x) ∧
    (∀ s x, pMore f s = some x → pMore (f + 1) s = some x) ∧
    (∀ s x, pFields f s = some x → pFields (f + 1) s = some x) ∧
    (∀ s x, pFMore f s = some x → pFMore (f + 1) s = some x) ∧
    (∀ s x, pField f s = some x → pField (f + 1) s = some x) := by
  intro f
  induction f with
  | zero =>
    refine ⟨?_, ?_, ?_, ?_, ?_, ?_⟩ <;>
      (intro s x h; exact absurd h (by simp [pVal, pItems, pMore, pFields, pFMore, pField]))
  | succ f ih =>
    obtain ⟨ihV, ihI, ihM, ihFs, ihFM, ihF⟩ := ih
    refine ⟨?_, ?_, ?_, ?_, ?_, ?_⟩
    · -- pVal
      intro s x h
      rcases hsw : skipWs s with _ | ⟨c, r⟩
      · rw [pVal_nil hsw] at h; exact absurd h (by simp)
      · by_cases h2 : c = '['
        · subst h2
          rw [pVal_arr hsw] at h
          rw [pVal_arr hsw]
          exact ihI r x h
        by_cases h3 : c = '{'
        · subst h3
          rw [pVal_obj hsw] at h
          rw [pVal_obj hsw]
          exact ihFs r x h
        rw [pVal_fuelfree hsw h2 h3]
        exact h
    · -- pItems
      intro s x h
      rcases hsw : skipWs s with _ | ⟨c, r⟩
      · rw [pItems_nil hsw] at h; exact absurd h (by simp)
      · by_cases h1 : c = ']'
        · subst h1
          rw [pItems_close hsw] at h
          rw [pItems_close hsw]
          exact h
        rcases hv : pVal f (c :: r) with _ | ⟨v, rem⟩
        · rw [pItems_val_none hsw h1 hv] at h; exact absurd h (by simp)
        · rw [pItems_val_some hsw h1 hv] at h
          rw [pItems_val_some hsw h1 (ihV _ _ hv)]
          rcases hm : pMore f rem with _ | y
          · rw [hm] at h; exact absurd h (by simp)
          · rw [hm] at h
            rw [ihM _ _ hm]
            exact h
    · -- pMore
      intro s x h
      rcases hsw : skipWs s with _ | ⟨c, r⟩
      · rw [pMore_nil hsw] at h; exact absurd h (by simp)
      · by_cases h2 : c = ','
        · subst h2
          rcases hv : pVal f r with _ | ⟨v, rem⟩
          · rw [pMore_comma_none hsw hv] at h; exact absurd h (by simp)
          · rw [pMore_comma_some hsw hv] at h
            rw [pMore_comma_some hsw (ihV _ _ hv)]
            rcases hm : pMore f rem with _ | y
            · rw [hm] at h; exact absurd h (by simp)
            · rw [hm] at h
              rw [ihM _ _ hm]
              exact h
        · rw [pMore_fuelfree hsw h2]
          exact h
    · -- pFields
      intro s x h
      rcases hsw : skipWs s with _ | ⟨c, r⟩
      · rw [pFields_nil hsw] at h; exact absurd h (by simp)
      · by_cases h1 : c = '}'
        · subst h1
          rw [pFields_close hsw] at h
          rw [pFields_close hsw]
          exact h
        rcases hv : pField f (c :: r) with _ | ⟨kv, rem⟩
        · rw [pFields_val_none hsw h1 hv] at h; exact absurd h (by simp)
        · rw [pFields_val_some hsw h1 hv] at h
          rw [pFields_val_some hsw h1 (ihF _ _ hv)]
          rcases hm : pFMore f rem with _ | y
          · rw [hm] at h; exact absurd h (by simp)
          · rw [hm] at h
            rw [ihFM _ _ hm]
            exact h
    · -- pFMore
      intro s x h
      rcases hsw : skipWs s with _ | ⟨c, r⟩
      · rw [pFMore_nil hsw] at h; exact absurd h (by simp)
      · by_cases h2 : c = ','
        · subst h2
          rcases hv : pField f r with _ | ⟨kv, rem⟩
          · rw [pFMore_comma_none hsw hv] at h; exact absurd h (by simp)
          · rw [pFMore_comma_some hsw hv] at h
            rw [pFMore_comma_some hsw (ihF _ _ hv)]
            rcases hm : pFMore f rem with _ | y
            · rw [hm] at h; exact absurd h (by simp)
            · rw [hm] at h
              rw [ihFM _ _ hm]
              exact h
        · rw [pFMore_fuelfree hsw h2]
          exact h
    · -- pField
      intro s x h
      rcases hsw : skipWs s with _ | ⟨c, r⟩
      · rw [pField_nil hsw] at h; exact absurd h (by simp)
      · by_cases h1 : c = '"'
        · subst h1
          rcases hb : pStrBody r with _ | ⟨k, rem⟩
          · rw [pField_body_none hsw hb] at h; exact absurd h (by simp)
          · rcases hsw2 : skipWs rem with _ | ⟨d, r2⟩
            · rw [pField_colon_nil hsw hb hsw2] at h; exact absurd h (by simp)
            · by_cases hd : d = ':'
              · subst hd
                rw [pField_colon hsw hb hsw2] at h
                rw [pField_colon hsw hb hsw2]
                rcases hv : pVal f r2 with _ | y
                · rw [hv] at h; exact absurd h (by simp)
                · rw [hv] at h
                  rw [ihV _ _ hv]
                  exact h
              · rw [pField_colon_bad hsw hb hsw2 hd] at h
                exact absurd h (by simp)
        · rw [pField_head_none hsw h1] at h
          exact absurd h (by simp)

theorem pVal_mono_le {f g : Nat} {s : Str} {x : Json × Str} (hfg : f ≤ g)
    (h : pVal f s = some x) : pVal g s = some x := by
  induction g, hfg using Nat.le_induction with
  | base => exact h
  | succ g _ ihg => exact (pMono g).1 s x ihg

theorem pVal_skipWs_congr {s1 s2 : Str} (h : skipWs s1 = skipWs s2) (f : Nat) :
    pVal f s1 = pVal f s2 := by
  cases f with
  | zero => rfl
  | succ f => simp only [pVal]; rw [h]

/-! Append lemmas: a successful parse of a prefix is unchanged by appending
a suffix, provided the suffix cannot extend a digit run at the very end. -/

theorem takeWhile_append_stop {p : Char → Bool} {l : Str} (u : Str)
    (h : l.dropWhile p ≠ []) :
    (l ++ u).takeWhile p = l.takeWhile p ∧ (l ++ u).dropWhile p = l.dropWhile p ++ u := by
  induction l with
  | nil => simp at h
  | cons c r ih =>
    by_cases hc : p c
    · simp only [List.cons_append, List.takeWhile_cons, List.dropWhile_cons, hc, if_true]
      have h2 : r.dropWhile p ≠ [] := by
        simpa [List.dropWhile_cons, hc] using h
      obtain ⟨ht, hd⟩ := ih h2
      exact ⟨by rw [ht], by rw [hd]⟩
    · simp only [Bool.not_eq_true] at hc
      simp [List.cons_append, List.takeWhile_cons, List.dropWhile_cons, hc]

theorem takeWhile_append_all {p : Char → Bool} {l : Str} (u : Str)
    (h : l.dropWhile p = []) :
    (l ++ u).takeWhile p = l ++ u.takeWhile p ∧ (l ++ u).dropWhile p = u.dropWhile p := by
  induction l with
  | nil => simp
  | cons c r ih =>
    by_cases hc : p c
    · simp only [List.dropWhile_cons, hc, if_true] at h
      obtain ⟨ht, hd⟩ := ih h
      simp only [List.cons_append, List.takeWhile_cons, List.dropWhile_cons, hc, if_true]
      exact ⟨by rw [ht], by rw [hd]⟩
    · simp only [Bool.not_eq_true] at hc
      simp [List.dropWhile_cons, hc] at h

theorem takeWhile_eq_self_of_dropWhile_nil {p : Char → Bool} {l : Str}
    (h : l.dropWhile p = []) : l.takeWhile p = l := by
  induction l with
  | nil => rfl
  | cons c r ih =>
    by_cases hc : p c
    · simp only [List.dropWhile_cons, hc, if_true] at h
      simp [List.takeWhile_cons, hc, ih h]
    · simp only [Bool.not_eq_true] at hc
      simp [List.dropWhile_cons, hc] at h

theorem pDigits_append {s ds rest : Str} (u : Str)
    (hu : ∀ c, u.head? = some c → c.isDigit = false)
    (h : pDigits s = some (ds, rest)) : pDigits (s ++ u) = some (ds, rest ++ u) := by
  simp only [pDigits] at h
  split at h
  · exact absurd h (by simp)
  · next hne =>
    injection h with h'
    injection h' with h1 h2
    subst h1
    subst h2
    have hut : u.takeWhile Char.isDigit = [] := by
      cases u with
      | nil => rfl
      | cons c r =>
        simp [List.takeWhile_cons, hu c rfl]
    have hud : u.dropWhile Char.isDigit = u := by
      cases u with
      | nil => rfl
      | cons c r =>
        simp [List.dropWhile_cons, hu c rfl]
    rcases hdw : s.dropWhile Char.isDigit with _ | ⟨d, t⟩
    · obtain ⟨ht, hd⟩ := takeWhile_append_all u hdw
      have hts := takeWhile_eq_self_of_dropWhile_nil hdw
      simp only [pDigits, ht, hut, List.append_nil, hd, hud, hts]
      simp only [List.isEmpty_eq_true] at hne ⊢
      rw [hts] at hne
      rw [if_neg hne]
      simp
    · obtain ⟨ht, hd⟩ := takeWhile_append_stop u (by rw [hdw]; simp)
      simp only [pDigits, ht, hd, hdw]
      simp only [List.isEmpty_eq_true] at hne ⊢
      rw [if_neg hne]

theorem pNum_append {s : Str} {v : Json} {rem : Str} (u : Str)
    (hu : ∀ c, u.head? = some c → c.isDigit = false)
    (h : pNum s = some (v, rem)) : pNum (s ++ u) = some (v, rem ++ u) := by
  cases s with
  | nil => exact absurd h (by simp [pNum])
  | cons c r =>
    simp only [pNum] at h
    rw [List.cons_append]
    simp only [pNum]
    by_cases hc : c = '-'
    · rw [if_pos hc] at h ⊢
      rcases hd : pDigits r with _ | ⟨ds, rest⟩
      · rw [hd] at h; exact absurd h (by simp)
      · rw [hd] at h
        rw [pDigits_append u hu hd]
        simp only [Option.map_some'] at h ⊢
        injection h with h'
        injection h' with h1 h2
        subst h1; subst h2
        rfl
    · rw [if_neg hc] at h ⊢
      rcases hd : pDigits (c :: r) with _ | ⟨ds, rest⟩
      · rw [hd] at h; exact absurd h (by simp)
      · rw [hd] at h
        rw [show c :: (r ++ u) = (c :: r) ++ u from rfl, pDigits_append u hu hd]
        simp only [Option.map_some'] at h ⊢
        injection h with h'
        injection h' with h1 h2
        subst h1; subst h2
        rfl

theorem pStrBody_append (u : Str) (s : Str) :
    ∀ p rem, pStrBody s = some (p, rem) → pStrBody (s ++ u) = some (p, rem ++ u) := by
  induction s using pStrBody.induct <;> intro p rem h <;>
    rw [pStrBody.eq_def] at h <;> rw [pStrBody.eq_def] <;> simp_all <;>
    try (obtain ⟨a, hb, hp⟩ := h; refine ⟨a, ?_, hp⟩; solve_by_elim)
  all_goals
    exfalso
    rename_i hinv
    obtain ⟨hvalid, -⟩ := h
    simp only [Nat.isValidChar] at hvalid
    omega

/-- Appending a suffix that cannot extend a final digit run preserves every
successful parse, with the suffix carried into the remainder. -/
theorem pAppend (u : Str) (hu : ∀ c, u.head? = some c → c.isDigit = false) : ∀ f,
    (∀ s v rem, pVal f s = some (v, rem) → pVal f (s ++ u) = some (v, rem ++ u)) ∧
    (∀ s v rem, pItems f s = some (v, rem) → pItems f (s ++ u) = some (v, rem ++ u)) ∧
    (∀ s v rem, pMore f s = some (v, rem) → pMore f (s ++ u) = some (v, rem ++ u)) ∧
    (∀ s v rem, pFields f s = some (v, rem) → pFields f (s ++ u) = some (v, rem ++ u)) ∧
    (∀ s v rem, pFMore f s = some (v, rem) → pFMore f (s ++ u) = some (v, rem ++ u)) ∧
    (∀ s kv rem, pField f s = some (kv, rem) → pField f (s ++ u) = some (kv, rem ++ u)) := by
  intro f
  induction f with
  | zero =>
    refine ⟨?_, ?_, ?_, ?_, ?_, ?_⟩ <;>
      (intro s a rem h; exact absurd h (by simp [pVal, pItems, pMore, pFields, pFMore, pField]))
  | succ f ih =>
    obtain ⟨ihV, ihI, ihM, ihFs, ihFM, ihF⟩ := ih
    refine ⟨?_, ?_, ?_, ?_, ?_, ?_⟩
    · -- pVal
      intro s v rem h
      rcases hsw : skipWs s with _ | ⟨c, r⟩
      · rw [pVal_nil hsw] at h; exact absurd h (by simp)
      · have hsw2 : skipWs (s ++ u) = c :: (r ++ u) := skipWs_append_of_head u hsw
        by_cases h1 : c = '"'
        · subst h1
          rw [pVal_str hsw] at h
          rw [pVal_str hsw2]
          rcases hb : pStrBody r with _ | ⟨p0, rem0⟩
          · rw [hb] at h; exact absurd h (by simp)
          · rw [hb] at h
            rw [pStrBody_append u r p0 rem0 hb]
            simp only [Option.map_some'] at h ⊢
            injection h with h'
            injection h' with hv hr
            subst hv; subst hr
            rfl
        by_cases h2 : c = '['
        · subst h2
          rw [pVal_arr hsw] at h
          rw [pVal_arr hsw2]
          exact ihI r v rem h
        by_cases h3 : c = '{'
        · subst h3
          rw [pVal_obj hsw] at h
          rw [pVal_obj hsw2]
          exact ihFs r v rem h
        by_cases h4 : c = 'n'
        · subst h4
          obtain ⟨hv, hr⟩ := pVal_null_inv hsw h
          subst hv; subst hr
          exact pVal_null_eval (by simpa using hsw2)
        by_cases h5 : c = 't'
        · subst h5
          obtain ⟨hv, hr⟩ := pVal_true_inv hsw h
          subst hv; subst hr
          exact pVal_true_eval (by simpa using hsw2)
        by_cases h6 : c = 'f'
        · subst h6
          obtain ⟨hv, hr⟩ := pVal_false_inv hsw h
          subst hv; subst hr
          exact pVal_false_eval (by simpa using hsw2)
        rw [pVal_num hsw h1 h2 h3 h4 h5 h6] at h
        rw [pVal_num hsw2 h1 h2 h3 h4 h5 h6]
        have := pNum_append u hu h
        simpa using this
    · -- pItems
      intro s v rem h
      rcases hsw : skipWs s with _ | ⟨c, r⟩
      · rw [pItems_nil hsw] at h; exact absurd h (by simp)
      · have hsw2 : skipWs (s ++ u) = c :: (r ++ u) := skipWs_append_of_head u hsw
        by_cases h1 : c = ']'
        · subst h1
          rw [pItems_close hsw] at h
          rw [pItems_close hsw2]
          injection h with h'
          injection h' with hv hr
          subst hv; subst hr
          rfl
        rcases hv : pVal f (c :: r) with _ | ⟨v1, rem1⟩
        · rw [pItems_val_none hsw h1 hv] at h; exact absurd h (by simp)
        · have hv2 : pVal f (c :: (r ++ u)) = some (v1, rem1 ++ u) := by
            have := ihV (c :: r) v1 rem1 hv
            simpa using this
          rw [pItems_val_some hsw h1 hv] at h
          rw [pItems_val_some hsw2 h1 hv2]
          rcases hm : pMore f rem1 with _ | ⟨v2, rem2⟩
          · rw [hm] at h; exact absurd h (by simp)
          · rw [hm] at h
            rw [ihM rem1 v2 rem2 hm]
            simp only [Option.map_some'] at h ⊢
            injection h with h'
            rw [show consArr v1 (v2, rem2) = (arrCons v1 v2, rem2) from rfl] at h'
            injection h' with hv' hr'
            subst hv'; subst hr'
            rfl
    · -- pMore
      intro s v rem h
      rcases hsw : skipWs s with _ | ⟨c, r⟩
      · rw [pMore_nil hsw] at h; exact absurd h (by simp)
      · have hsw2 : skipWs (s ++ u) = c :: (r ++ u) := skipWs_append_of_head u hsw
        by_cases h1 : c = ']'
        · subst h1
          rw [pMore_close hsw] at h
          rw [pMore_close hsw2]
          injection h with h'
          injection h' with hv hr
          subst hv; subst hr
          rfl
        by_cases h2 : c = ','
        · subst h2
          rcases hv : pVal f r with _ | ⟨v1, rem1⟩
          · rw [pMore_comma_none hsw hv] at h; exact absurd h (by simp)
          · rw [pMore_comma_some hsw hv] at h
            rw [pMore_comma_some hsw2 (ihV r v1 rem1 hv)]
            rcases hm : pMore f rem1 with _ | ⟨v2, rem2⟩
            · rw [hm] at h; exact absurd h (by simp)
            · rw [hm] at h
              rw [ihM rem1 v2 rem2 hm]
              simp only [Option.map_some'] at h ⊢
              injection h with h'
              rw [show consArr v1 (v2, rem2) = (arrCons v1 v2, rem2) from rfl] at h'
              injection h' with hv' hr'
              subst hv'; subst hr'
              rfl
        · rw [pMore_junk hsw h1 h2] at h
          exact absurd h (by simp)
    · -- pFields
      intro s v rem h
      rcases hsw : skipWs s with _ | ⟨c, r⟩
      · rw [pFields_nil hsw] at h; exact absurd h (by simp)
      · have hsw2 : skipWs (s ++ u) = c :: (r ++ u) := skipWs_append_of_head u hsw
        by_cases h1 : c = '}'
        · subst h1
          rw [pFields_close hsw] at h
          rw [pFields_close hsw2]
          injection h with h'
          injection h' with hv hr
          subst hv; subst hr
          rfl
        rcases hv : pField f (c :: r) with _ | ⟨kv1, rem1⟩
        · rw [pFields_val_none hsw h1 hv] at h; exact absurd h (by simp)
        · have hv2 : pField f (c :: (r ++ u)) = some (kv1, rem1 ++ u) := by
            have := ihF (c :: r) kv1 rem1 hv
            simpa using this
          rw [pFields_val_some hsw h1 hv] at h
          rw [pFields_val_some hsw2 h1 hv2]
          rcases hm : pFMore f rem1 with _ | ⟨v2, rem2⟩
          · rw [hm] at h; exact absurd h (by simp)
          · rw [hm] at h
            rw [ihFM rem1 v2 rem2 hm]
            simp only [Option.map_some'] at h ⊢
            injection h with h'
            rw [show consObj kv1 (v2, rem2) = (objCons kv1 v2, rem2) from rfl] at h'
            injection h' with hv' hr'
            subst hv'; subst hr'
            rfl
    · -- pFMore
      intro s v rem h
      rcases hsw : skipWs s with _ | ⟨c, r⟩
      · rw [pFMore_nil hsw] at h; exact absurd h (by simp)
      · have hsw2 : skipWs (s ++ u) = c :: (r ++ u) := skipWs_append_of_head u hsw
        by_cases h1 : c = '}'
        · subst h1
          rw [pFMore_close hsw] at h
          rw [pFMore_close hsw2]
          injection h with h'
          injection h' with hv hr
          subst hv; subst hr
          rfl
        by_cases h2 : c = ','
        · subst h2
          rcases hv : pField f r with _ | ⟨kv1, rem1⟩
          · rw [pFMore_comma_none hsw hv] at h; exact absurd h (by simp)
          · rw [pFMore_comma_some hsw hv] at h
            rw [pFMore_comma_some hsw2 (ihF r kv1 rem1 hv)]
            rcases hm : pFMore f rem1 with _ | ⟨v2, rem2⟩
            · rw [hm] at h; exact absurd h (by simp)
            · rw [hm] at h
              rw [ihFM rem1 v2 rem2 hm]
              simp only [Option.map_some'] at h ⊢
              injection h with h'
              rw [show consObj kv1 (v2, rem2) = (objCons kv1 v2, rem2) from rfl] at h'
              injection h' with hv' hr'
              subst hv'; subst hr'
              rfl
        · rw [pFMore_junk hsw h1 h2] at h
          exact absurd h (by simp)
    · -- pField
      intro s kv rem h
      rcases hsw : skipWs s with _ | ⟨c, r⟩
      · rw [pField_nil hsw] at h; exact absurd h (by simp)
      · have hsw2 : skipWs (s ++ u) = c :: (r ++ u) := skipWs_append_of_head u hsw
        by_cases h1 : c = '"'
        · subst h1
          rcases hb : pStrBody r with _ | ⟨k, rem0⟩
          · rw [pField_body_none hsw hb] at h; exact absurd h (by simp)
          · rcases hsw3 : skipWs rem0 with _ | ⟨d, r2⟩
            · rw [pField_colon_nil hsw hb hsw3] at h; exact absurd h (by simp)
            · by_cases hd : d = ':'
              · subst hd
                rw [pField_colon hsw hb hsw3] at h
                have hb2 := pStrBody_append u r k rem0 hb
                have hsw4 : skipWs (rem0 ++ u) = ':' :: (r2 ++ u) :=
                  skipWs_append_of_head u hsw3
                rw [pField_colon hsw2 hb2 hsw4]
                rcases hv : pVal f r2 with _ | ⟨v1, rem1⟩
                · rw [hv] at h; exact absurd h (by simp)
                · rw [hv] at h
                  rw [ihV r2 v1 rem1 hv]
                  simp only [Option.map_some'] at h ⊢
                  injection h with h'
                  injection h' with hv' hr'
                  subst hv'; subst hr'
                  rfl
              · rw [pField_colon_bad hsw hb hsw3 hd] at h
                exact absurd h (by simp)
        · rw [pField_head_none hsw h1] at h
          exact absurd h (by simp)

/-! jsonParse-level consequences. -/

theorem pVal_bad_head {s : Str} {c : Char} {r : Str} (hsw : skipWs s = c :: r)
    (h1 : c ≠ '"') (h2 : c ≠ '[') (h3 : c ≠ '{') (h4 : c ≠ 'n') (h5 : c ≠ 't')
    (h6 : c ≠ 'f') (h7 : c ≠ '-') (h8 : c.isDigit = false) :
    ∀ f, pVal f s = none := by
  intro f
  cases f with
  | zero => rfl
  | succ f =>
    rw [pVal_num hsw h1 h2 h3 h4 h5 h6]
    simp [pNum, if_neg h7, pDigits, List.takeWhile_cons, h8]

theorem jsonParse_of_pVal {s : Str} {v : Json} {rem : Str} {f : Nat} (hf : f ≤ bigFuel s)
    (hp : pVal f s = some (v, rem)) (hws : skipWs rem = []) : jsonParse s = some v := by
  have h2 := pVal_mono_le hf hp
  unfold jsonParse
  rw [h2]
  simp [hws]

theorem jsonParse_elim {s : Str} {v : Json} (h : jsonParse s = some v) :
    ∃ rem, pVal (bigFuel s) s = some (v, rem) ∧ skipWs rem = [] := by
  unfold jsonParse at h
  rcases hp : pVal (bigFuel s) s with _ | ⟨v1, rem⟩
  · rw [hp] at h; exact absurd h (by simp)
  · rw [hp] at h
    dsimp only at h
    by_cases hws : skipWs rem = []
    · rw [if_pos hws] at h
      injection h with h'
      exact ⟨rem, by rw [h'], hws⟩
    · rw [if_neg hws] at h
      exact absurd h (by simp)

theorem jsonParse_none_of_bad_head {s : Str} {c : Char} {r : Str} (hsw : skipWs s = c :: r)
    (h1 : c ≠ '"') (h2 : c ≠ '[') (h3 : c ≠ '{') (h4 : c ≠ 'n') (h5 : c ≠ 't')
    (h6 : c ≠ 'f') (h7 : c ≠ '-') (h8 : c.isDigit = false) : jsonParse s = none := by
  unfold jsonParse
  rw [pVal_bad_head hsw h1 h2 h3 h4 h5 h6 h7 h8]

theorem head?_mem {b : Str} {c : Char} (h : b.head? = some c) : c ∈ b := by
  cases b with
  | nil => simp at h
  | cons d t =>
    simp only [List.head?_cons] at h
    injection h with h'
    rw [← h']
    exact List.mem_cons_self d t

/-- Surrounding a successfully parsed string with whitespace does not change
its parse. -/
theorem jsonParse_ws_pad {t : Str} {v : Json} (a b : Str) (h : jsonParse t = some v)
    (ha : ∀ c ∈ a, wsChar c = true) (hb : ∀ c ∈ b, wsChar c = true) :
    jsonParse (a ++ (t ++ b)) = some v := by
  obtain ⟨rem, hp, hws⟩ := jsonParse_elim h
  have hu : ∀ c, b.head? = some c → c.isDigit = false := fun c hc =>
    wsChar_isDigit_false (hb c (head?_mem hc))
  have hp2 := (pAppend b hu (bigFuel t)).1 t v rem hp
  have hle : bigFuel t ≤ bigFuel (a ++ (t ++ b)) := by
    simp only [bigFuel, List.length_append]
    omega
  have hp3 := pVal_mono_le hle hp2
  have hcongr : pVal (bigFuel (a ++ (t ++ b))) (a ++ (t ++ b)) =
      pVal (bigFuel (a ++ (t ++ b))) (t ++ b) :=
    pVal_skipWs_congr (skipWs_append_of_all (t ++ b) ha) _
  have hws2 : skipWs (rem ++ b) = [] := by
    rw [skipWs_append_of_all b (skipWs_all_of_nil hws)]
    exact skipWs_nil_of_all hb
  unfold jsonParse
  rw [hcongr.trans hp3]
  simp [hws2]

/-! splitNl lemmas: the chunk boundary is invisible to the line splitter. -/

theorem splitNl_cons_nl (r : Str) : splitNl ('\n' :: r) = [] :: splitNl r := by
  simp [splitNl]

theorem splitNl_cons_of_ne {c : Char} {r h1 : Str} {t : List Str} (hc : c ≠ '\n')
    (hr : splitNl r = h1 :: t) : splitNl (c :: r) = (c :: h1) :: t := by
  simp [splitNl, if_neg hc, hr]

theorem splitNl_ne_nil (s : Str) : splitNl s ≠ [] := by
  induction s with
  | nil => simp [splitNl]
  | cons c r ih =>
    by_cases hc : c = '\n'
    · subst hc
      rw [splitNl_cons_nl]
      simp
    · rcases h : splitNl r with _ | ⟨h1, t⟩
      · exact absurd h ih
      · rw [splitNl_cons_of_ne hc h]
        simp

theorem splitNl_no_nl (s : Str) : ∀ p ∈ splitNl s, '\n' ∉ p := by
  induction s with
  | nil =>
    intro p hp
    simp only [splitNl, List.mem_singleton] at hp
    subst hp
    simp
  | cons c r ih =>
    intro p hp
    by_cases hc : c = '\n'
    · subst hc
      rw [splitNl_cons_nl, List.mem_cons] at hp
      rcases hp with rfl | hp
      · simp
      · exact ih p hp
    · rcases hs : splitNl r with _ | ⟨h1, t⟩
      · exact absurd hs (splitNl_ne_nil r)
      · rw [splitNl_cons_of_ne hc hs, List.mem_cons] at hp
        rcases hp with rfl | hp
        · intro hmem
          rw [List.mem_cons] at hmem
          rcases hmem with hmem | hmem
          · exact hc hmem.symm
          · exact ih h1 (by rw [hs]; exact List.mem_cons_self h1 t) hmem
        · exact ih p (by rw [hs]; exact List.mem_cons_of_mem h1 hp)

theorem splitNl_of_no_nl {s : Str} (h : '\n' ∉ s) : splitNl s = [s] := by
  induction s with
  | nil => rfl
  | cons c r ih =>
    have hc : c ≠ '\n' := fun hc => h (hc ▸ List.mem_cons_self c r)
    have hr : splitNl r = [r] := ih fun hm => h (List.mem_cons_of_mem c hm)
    rw [splitNl_cons_of_ne hc hr]

theorem splitNl_append (a b : Str) :
    splitNl (a ++ b) = (splitNl a).dropLast ++
      (((splitNl a).getLast?.getD [] ++ (splitNl b).head?.getD []) :: (splitNl b).tail) := by
  induction a with
  | nil =>
    rcases hb : splitNl b with _ | ⟨hb1, tb⟩
    · exact absurd hb (splitNl_ne_nil b)
    · simp [splitNl, hb]
  | cons c a ih =>
    rcases hb : splitNl b with _ | ⟨hb1, tb⟩
    · exact absurd hb (splitNl_ne_nil b)
    rcases ha : splitNl a with _ | ⟨h1, t⟩
    · exact absurd ha (splitNl_ne_nil a)
    rw [hb, ha] at ih
    by_cases hc : c = '\n'
    · subst hc
      rw [List.cons_append, splitNl_cons_nl, ih, splitNl_cons_nl, ha]
      rcases t with _ | ⟨t1, t2⟩ <;> simp
    · rcases t with _ | ⟨t1, t2⟩
      · simp only [List.dropLast_single, List.nil_append, List.getLast?_singleton,
          Option.getD_some, List.head?_cons, List.tail_cons] at ih
        rw [List.cons_append, splitNl_cons_of_ne hc ih,
          splitNl_cons_of_ne hc ha]
        simp
      · have ht : splitNl (a ++ b) =
            h1 :: ((t1 :: t2).dropLast ++
              ((t1 :: t2).getLast?.getD [] ++ hb1) :: tb) := by
          rw [ih]
          simp [List.getLast?_cons_cons]
        rw [List.cons_append, splitNl_cons_of_ne hc ht,
          splitNl_cons_of_ne hc ha]
        simp [List.getLast?_cons_cons]

/-- Processing the chunks one by one accumulates exactly the tokens of the
complete lines of the concatenation of buffer and remaining chunks. -/
theorem streamDecode_go (chunks : List Str) :
    ∀ (buf : Str) (acc : List Json), '\n' ∉ buf →
      (chunks.foldl (fun st c =>
        let r := decodeStep st.1 c
        (r.1, st.2 ++ r.2)) (buf, acc)).2 =
      acc ++ ((splitNl (buf ++ chunks.flatten)).dropLast).filterMap lineYield := by
  induction chunks with
  | nil =>
    intro buf acc hbuf
    simp [splitNl_of_no_nl hbuf]
  | cons c rest ih =>
    intro buf acc hbuf
    simp only [List.foldl_cons, List.flatten_cons]
    have hstep : decodeStep buf c =
        ((splitNl (buf ++ c)).getLast?.getD [],
          ((splitNl (buf ++ c)).dropLast).filterMap lineYield) := rfl
    rw [hstep]
    have hnb : '\n' ∉ (splitNl (buf ++ c)).getLast?.getD [] := by
      rcases hl : (splitNl (buf ++ c)).getLast? with _ | p
      · simp
      · have hp : p ∈ splitNl (buf ++ c) :=
          List.mem_of_mem_getLast? (by rw [hl]; exact rfl)
        simpa [hl] using splitNl_no_nl (buf ++ c) p hp
    rw [ih _ _ hnb]
    have key : splitNl ((splitNl (buf ++ c)).getLast?.getD [] ++ rest.flatten) =
        ((splitNl (buf ++ c)).getLast?.getD [] ++ (splitNl rest.flatten).head?.getD []) ::
          (splitNl rest.flatten).tail := by
      rw [splitNl_append, splitNl_of_no_nl hnb]
      simp
    have rhs : splitNl (buf ++ (c ++ rest.flatten)) =
        (splitNl (buf ++ c)).dropLast ++
          (((splitNl (buf ++ c)).getLast?.getD [] ++ (splitNl rest.flatten).head?.getD []) ::
            (splitNl rest.flatten).tail) := by
      rw [← List.append_assoc, splitNl_append]
    rw [rhs, key]
    rw [List.dropLast_append_of_ne_nil _ (by simp)]
    simp [List.filterMap_append, List.append_assoc]

/-- The decoder's tokens over any chunking equal the tokens of the complete
lines of the whole concatenated text. -/
theorem streamDecode_eq_lines (chunks : List Str) :
    streamDecode chunks = ((splitNl chunks.flatten).dropLast).filterMap lineYield := by
  have := streamDecode_go chunks [] [] (by simp)
  simpa [streamDecode] using this

/-! Index lemmas for the substring-extraction strategies. -/

theorem idxOf?_cons_self (c : Char) (r : Str) : idxOf? c (c :: r) = some 0 := by
  simp [idxOf?]

theorem idxOf?_cons_of_ne {a c : Char} (r : Str) (h : a ≠ c) :
    idxOf? c (a :: r) = (idxOf? c r).map (· + 1) := by
  simp [idxOf?, h]

theorem idxOf?_append_of_not_mem {c : Char} {a : Str} (b : Str) (h : c ∉ a) :
    idxOf? c (a ++ b) = (idxOf? c b).map (a.length + ·) := by
  induction a with
  | nil => simp
  | cons x a' ih =>
    have hx : x ≠ c := fun hx => h (hx ▸ List.mem_cons_self x a')
    rw [List.cons_append, idxOf?_cons_of_ne _ hx,
      ih fun hm => h (List.mem_cons_of_mem x hm)]
    rw [Option.map_map]
    congr 1
    funext n
    simp only [Function.comp_apply, List.length_cons]
    omega

/-! The retry loop never settles before its starting time. -/

theorem withRetryGo_endTime_ge {α : Type} (op : Nat → Nat → Except ErrInfo α × Nat)
    (retries baseDelay : Nat) :
    ∀ rem i t last, t ≤ (withRetryGo op retries baseDelay rem i t last).endTime := by
  intro rem
  induction rem with
  | zero => intro i t last; exact Nat.le_refl t
  | succ rem ih =>
    intro i t last
    rcases hop : op i t with ⟨r, d⟩
    rcases r with e | v
    · simp only [withRetryGo, hop]
      split
      · exact Nat.le_add_right t d
      · split
        · refine Nat.le_trans ?_ (ih (i + 1) (t + d + baseDelay * 2 ^ i) (some e))
          omega
        · exact Nat.le_add_right t d
    · simp only [withRetryGo, hop]
      exact Nat.le_add_right t d

/-! Agreement of the source-derived line handler with the spec-side record
content, for records whose content field is a string. -/

theorem lineYield_spec_agree (line : Str)
    (h : ∀ c, lineYield line = some c → tokenIsStr c = true) :
    ((lineYield line).map jsToStr).getD [] = (specRecordContent line).getD [] := by
  cases hst : strStarts (strLit "data: ") (trimStr line) with
  | false =>
    have hl : lineYield line = none := by simp [lineYield, hst]
    have hr : specRecordContent line = none := by simp [specRecordContent, hst]
    simp [hl, hr]
  | true =>
    by_cases hdone : (trimStr line).drop 6 = strLit "[DONE]"
    · have hl : lineYield line = none := by simp [lineYield, hst, hdone]
      have hr : specRecordContent line = none := by
        simp [specRecordContent, hst, hdone,
          show jsonParse (strLit "[DONE]") = none from rfl]
      simp [hl, hr]
    · rcases hj : jsonParse ((trimStr line).drop 6) with _ | j
      · have hl : lineYield line = none := by simp [lineYield, hst, hdone, hj]
        have hr : specRecordContent line = none := by
          simp [specRecordContent, hst, hdone, hj]
        simp [hl, hr]
      · rcases hc : contentOf j with _ | c
        · have hl : lineYield line = none := by simp [lineYield, hst, hdone, hj, hc]
          have hr : specRecordContent line = none := by
            simp [specRecordContent, hst, hdone, hj, hc]
          simp [hl, hr]
        · have hly : jsTruthy c = true → lineYield line = some c := fun ht => by
            simp [lineYield, hst, hdone, hj, hc, ht]
          have hr0 : ∀ t, c = .str t → specRecordContent line = some t := fun t hct => by
            simp [specRecordContent, hst, hdone, hj, hc, hct]
          have hrx : (∀ t, c ≠ .str t) → specRecordContent line = none := fun hne => by
            rcases c with _ | b | n | t | xs | fs
            · simp [specRecordContent, hst, hdone, hj, hc]
            · simp [specRecordContent, hst, hdone, hj, hc]
            · simp [specRecordContent, hst, hdone, hj, hc]
            · exact absurd rfl (hne t)
            · simp [specRecordContent, hst, hdone, hj, hc]
            · simp [specRecordContent, hst, hdone, hj, hc]
          rcases c with _ | b | n | t | xs | fs
          · have hl : lineYield line = none := by
              simp [lineYield, hst, hdone, hj, hc, jsTruthy]
            simp [hl, hrx (by intro t ht; exact Json.noConfusion ht)]
          · cases b with
            | false =>
              have hl : lineYield line = none := by
                simp [lineYield, hst, hdone, hj, hc, jsTruthy]
              simp [hl, hrx (by intro t ht; exact Json.noConfusion ht)]
            | true =>
              have := h _ (hly rfl)
              simp [tokenIsStr] at this
          · by_cases hn : n = 0
            · have hl : lineYield line = none := by
                simp [lineYield, hst, hdone, hj, hc, jsTruthy, hn]
              simp [hl, hrx (by intro t ht; exact Json.noConfusion ht)]
            · have := h _ (hly (by simp [jsTruthy, hn]))
              simp [tokenIsStr] at this
          · by_cases ht : t = []
            · have hl : lineYield line = none := by
                simp [lineYield, hst, hdone, hj, hc, jsTruthy, ht]
              rw [hl, hr0 t rfl, ht]
              rfl
            · have hl : lineYield line = some (.str t) := hly (by simp [jsTruthy, ht])
              rw [hl, hr0 t rfl]
              rfl
          · have := h _ (hly rfl)
            simp [tokenIsStr] at this
          · have := h _ (hly rfl)
            simp [tokenIsStr] at this

/-- Lifting the per-line agreement to the filtered token list of a line
sequence. -/
theorem lines_concat_agree (lines : List Str)
    (h : ∀ l ∈ lines, ∀ c, lineYield l = some c → tokenIsStr c = true) :
    ((lines.filterMap lineYield).map jsToStr).flatten =
      (lines.filterMap specRecordContent).flatten := by
  induction lines with
  | nil => rfl
  | cons l ls ih =>
    have hl := lineYield_spec_agree l (h l (List.mem_cons_self l ls))
    have hrest := ih fun x hx => h x (List.mem_cons_of_mem l hx)
    simp only [List.filterMap_cons]
    rcases hly : lineYield l with _ | c <;> rcases hsp : specRecordContent l with _ | t <;>
      rw [hly, hsp] at hl <;> simp_all

/-! The cleaned form of a fenced JSON payload with prose around it. -/

theorem clean_fenceWrap {p1 s p2 : Str} (h1 : '`' ∉ p1) (hs : '`' ∉ s)
    (h2 : '`' ∉ p2) :
    stripTicks (stripFenceJson (fenceWrap p1 s p2)) =
      p1 ++ '\n' :: (s ++ '\n' :: '\n' :: p2) := by
  have e1 : fenceWrap p1 s p2 =
      p1 ++ ('`' :: '`' :: '`' :: 'j' :: 's' :: 'o' :: 'n' ::
        ('\n' :: (s ++ '\n' :: (strLit "```" ++ '\n' :: p2)))) := by
    simp only [fenceWrap, strLit,
      show "```json".data = ['`', '`', '`', 'j', 's', 'o', 'n'] from rfl]
    simp
  rw [e1, stripFenceJson_append_of_no_tick _ h1, stripFenceJson_fence]
  have e2 : ('\n' :: (s ++ '\n' :: (strLit "```" ++ '\n' :: p2))) =
      ('\n' :: (s ++ ['\n'])) ++ ('`' :: '`' :: '`' :: '\n' :: p2) := by
    simp [strLit, show "```".data = ['`', '`', '`'] from rfl]
  rw [e2]
  have hp : '`' ∉ ('\n' :: (s ++ ['\n'])) := by
    intro hm
    rcases List.mem_cons.mp hm with h | h
    · exact absurd h.symm (by decide)
    · rcases List.mem_append.mp h with h | h
      · exact hs h
      · simp at h
  rw [stripFenceJson_append_of_no_tick _ hp, stripFenceJson_closing h2]
  have hp2 : '`' ∉ p1 ++ ('\n' :: (s ++ ['\n'])) := by
    intro hm
    rcases List.mem_append.mp hm with h | h
    · exact h1 h
    · exact hp h
  rw [← List.append_assoc, stripTicks_append_of_no_tick _ hp2]
  have e3 : ('`' :: '`' :: '`' :: '\n' :: p2) = '`' :: '`' :: '`' :: ('\n' :: p2) := rfl
  rw [e3, stripTicks_ticks, stripTicks_of_no_tick (by simpa using h2)]
  simp

/-- C9: the empty raw text input makes `cleanAndParseJson` return an empty
array rather than raise an error. -/
theorem C9_empty_input_empty_array : cleanAndParseJson ([] : Str) = .ok (.arr []) := rfl

/-- C10: for settings with `novelType = 'short'` or `chapterCount = 1`, the
outline post-processing always returns exactly one chapter with id 1; several
chapters are merged with their summaries joined by " -> ", and an empty array
is replaced by one chapter built from the title and premise. -/
theorem C10_one_shot_outline (s : NovelSettings) (result : List OutlineChapter)
    (h : isOneShot s = true) :
    (generateOutlinePost s result).length = 1 ∧
    (∀ c ∈ generateOutlinePost s result, c.id = 1) ∧
    (1 < result.length →
      generateOutlinePost s result =
        [⟨1, s.title, joinSep (strLit " -> ") (result.map (·.summary))⟩]) ∧
    (result = [] → generateOutlinePost s result = [⟨1, s.title, s.premise⟩]) := by
  simp only [generateOutlinePost, if_pos h, adjustOneShot]
  rcases result with _ | ⟨c, cs⟩
  · simp
  · rcases cs with _ | ⟨c2, cs2⟩
    · simp
    · simp [List.length_cons]

/-- C10 witness at a concrete one-shot settings and a two-chapter outline. -/
theorem C10_one_shot_outline_witness :
    isOneShot ⟨strLit "T", strLit "P", strLit "short", 5, .custom, [], [], []⟩ = true ∧
    ((generateOutlinePost ⟨strLit "T", strLit "P", strLit "short", 5, .custom, [], [], []⟩
        [⟨7, strLit "a", strLit "x"⟩, ⟨8, strLit "b", strLit "y"⟩]).length = 1 ∧
      (∀ c ∈ generateOutlinePost
          ⟨strLit "T", strLit "P", strLit "short", 5, .custom, [], [], []⟩
          [⟨7, strLit "a", strLit "x"⟩, ⟨8, strLit "b", strLit "y"⟩], c.id = 1) ∧
      (1 < ([⟨7, strLit "a", strLit "x"⟩, ⟨8, strLit "b", strLit "y"⟩] :
          List OutlineChapter).length →
        generateOutlinePost ⟨strLit "T", strLit "P", strLit "short", 5, .custom, [], [], []⟩
            [⟨7, strLit "a", strLit "x"⟩, ⟨8, strLit "b", strLit "y"⟩] =
          [⟨1, strLit "T", joinSep (strLit " -> ")
            ([⟨7, strLit "a", strLit "x"⟩, (⟨8, strLit "b", strLit "y"⟩ :
              OutlineChapter)].map (·.summary))⟩]) ∧
      (([⟨7, strLit "a", strLit "x"⟩, ⟨8, strLit "b", strLit "y"⟩] :
          List OutlineChapter) = [] →
        generateOutlinePost ⟨strLit "T", strLit "P", strLit "short", 5, .custom, [], [], []⟩
            [⟨7, strLit "a", strLit "x"⟩, ⟨8, strLit "b", strLit "y"⟩] =
          [⟨1, strLit "T", strLit "P"⟩])) :=
  ⟨by decide, C10_one_shot_outline _ _ (by decide)⟩

/-- C7 counterexample: with every required provider field absent, the three
read-only operations return fallback values instead of failing with a
missing-configuration error. -/
theorem C7_counterexample_fallback_ops :
    summarizeChapterGate ⟨[], [], strLit "long", 5, .custom, [], [], []⟩ = .fallback [] ∧
    checkConsistencyGate ⟨[], [], strLit "long", 5, .custom, [], [], []⟩ =
      .fallback (strLit "Skipped") ∧
    checkGrammarGate ⟨[], [], strLit "long", 5, .custom, [], [], []⟩ = .fallback [] :=
  ⟨rfl, rfl, rfl⟩

/-- C7 (amended): for every non-Gemini settings missing a required field, the
eleven generating operations fail fast with their missing-configuration
message before any network call; summarizeChapter, checkConsistency and
checkGrammar instead return fallback values ("", "Skipped", []) without a
network call. -/
theorem C7_missing_config_gates (s : NovelSettings)
    (hprov : s.provider ≠ .gemini)
    (hmiss : getBaseUrl s = [] ∨ s.apiKey = [] ∨ resolvedModel s = []) :
    expandTextGate s = .throwMissing (strLit "Missing provider configuration") ∧
    generateCharacterConceptsGate s = .throwMissing (strLit "Missing config") ∧
    generateSingleCharacterGate s = .throwMissing (strLit "Missing config") ∧
    generateWorldSettingGate s = .throwMissing (strLit "Missing config") ∧
    generatePremiseGate s = .throwMissing (strLit "Missing config") ∧
    generateOutlineGate s = .throwMissing (strLit "Missing config") ∧
    generateCharactersGate s = .throwMissing (strLit "Missing config") ∧
    fixChapterConsistencyGate s = .throwMissing (strLit "Missing config") ∧
    autoCorrectGrammarGate s = .throwMissing (strLit "Missing config") ∧
    continueWritingGate s = .throwMissing (strLit "Missing config") ∧
    generateChapterStreamGate s = .throwMissing (strLit "Missing config") ∧
    summarizeChapterGate s = .fallback [] ∧
    checkConsistencyGate s = .fallback (strLit "Skipped") ∧
    checkGrammarGate s = .fallback [] := by
  have key : ∀ {α : Type} (o : GateOutcome α), configGate s o = o := by
    intro α o
    simp only [configGate, if_neg hprov]
    split
    · rfl
    · rename_i hcond
      simp only [Bool.or_eq_true, decide_eq_true_eq, not_or] at hcond
      rcases hmiss with h | h | h
      · exact absurd h hcond.1.1
      · exact absurd h hcond.1.2
      · exact absurd h hcond.2
  exact ⟨key _, key _, key _, key _, key _, key _, key _, key _, key _, key _,
    key _, key _, key _, key _⟩

/-- C7 witness at a custom-provider settings with no url, key or model. -/
theorem C7_missing_config_gates_witness :
    ((⟨[], [], strLit "long", 5, .custom, [], [], []⟩ : NovelSettings).provider ≠ .gemini ∧
      getBaseUrl ⟨[], [], strLit "long", 5, .custom, [], [], []⟩ = []) ∧
    (expandTextGate ⟨[], [], strLit "long", 5, .custom, [], [], []⟩ =
      .throwMissing (strLit "Missing provider configuration") ∧
    generateCharacterConceptsGate ⟨[], [], strLit "long", 5, .custom, [], [], []⟩ =
      .throwMissing (strLit "Missing config") ∧
    generateSingleCharacterGate ⟨[], [], strLit "long", 5, .custom, [], [], []⟩ =
      .throwMissing (strLit "Missing config") ∧
    generateWorldSettingGate ⟨[], [], strLit "long", 5, .custom, [], [], []⟩ =
      .throwMissing (strLit "Missing config") ∧
    generatePremiseGate ⟨[], [], strLit "long", 5, .custom, [], [], []⟩ =
      .throwMissing (strLit "Missing config") ∧
    generateOutlineGate ⟨[], [], strLit "long", 5, .custom, [], [], []⟩ =
      .throwMissing (strLit "Missing config") ∧
    generateCharactersGate ⟨[], [], strLit "long", 5, .custom, [], [], []⟩ =
      .throwMissing (strLit "Missing config") ∧
    fixChapterConsistencyGate ⟨[], [], strLit "long", 5, .custom, [], [], []⟩ =
      .throwMissing (strLit "Missing config") ∧
    autoCorrectGrammarGate ⟨[], [], strLit "long", 5, .custom, [], [], []⟩ =
      .throwMissing (strLit "Missing config") ∧
    continueWritingGate ⟨[], [], strLit "long", 5, .custom, [], [], []⟩ =
      .throwMissing (strLit "Missing config") ∧
    generateChapterStreamGate ⟨[], [], strLit "long", 5, .custom, [], [], []⟩ =
      .throwMissing (strLit "Missing config") ∧
    summarizeChapterGate ⟨[], [], strLit "long", 5, .custom, [], [], []⟩ = .fallback [] ∧
    checkConsistencyGate ⟨[], [], strLit "long", 5, .custom, [], [], []⟩ =
      .fallback (strLit "Skipped") ∧
    checkGrammarGate ⟨[], [], strLit "long", 5, .custom, [], [], []⟩ = .fallback []) :=
  ⟨⟨by decide, rfl⟩, C7_missing_config_gates _ (by decide) (Or.inl rfl)⟩

/-- C1: an error classified as cancellation or as a safety block is rethrown
at once by `withRetry`, and the streaming connection loop likewise makes no
second attempt on a safety block or any non-network error. -/
theorem C1_terminal_errors_single_attempt {α : Type}
    (op : Nat → Nat → Except ErrInfo α × Nat) (att : Nat → Except ErrInfo Unit)
    (retries baseDelay : Nat) (e e' : ErrInfo) (d : Nat)
    (hr : 1 ≤ retries)
    (hop : op 0 0 = (.error e, d))
    (hterm : isAbortedErr e = true ∨ isSafetyBlockMsg (msgOf e) = true)
    (hatt : att 0 = .error e')
    (hterm' : strHas (strLit "Content blocked by") e'.message = true ∨
      isNetworkMsg e'.message = false) :
    (withRetry op retries baseDelay).calls = 1 ∧
    (withRetry op retries baseDelay).result = .error e ∧
    (streamConnect att).2.1 = 1 ∧ (streamConnect att).1 = .error e' := by
  have hcond : (isAbortedErr e || isSafetyBlockMsg (msgOf e)) = true := by
    rcases hterm with h | h <;> simp [h]
  have h1 : withRetry op retries baseDelay = ⟨.error e, 1, [], 0 + d⟩ := by
    unfold withRetry
    rcases retries with _ | n
    · omega
    · simp [withRetryGo, hop, hcond]
  have h2 : streamConnect att = (.error e', 1, []) := by
    unfold streamConnect
    rcases hterm' with h | h
    · simp [streamConnGo, hatt, h]
    · by_cases hsafe : strHas (strLit "Content blocked by") e'.message = true
      · simp [streamConnGo, hatt, hsafe]
      · simp [streamConnGo, hatt, hsafe, h]
  rw [h1, h2]
  exact ⟨rfl, rfl, rfl, rfl⟩

/-- C1 witness: an aborted error through `withRetry` and a safety block
through the connection loop, each observed after exactly one call. -/
theorem C1_terminal_errors_single_attempt_witness :
    (withRetry (fun _ _ => ((.error abortError : Except ErrInfo Nat), 5)) 3 2000).calls = 1 ∧
    (withRetry (fun _ _ => ((.error abortError : Except ErrInfo Nat), 5)) 3 2000).result =
      .error abortError ∧
    (streamConnect (fun _ => .error ⟨safetyMsg, strLit "Error"⟩)).2.1 = 1 ∧
    (streamConnect (fun _ => .error ⟨safetyMsg, strLit "Error"⟩)).1 =
      .error ⟨safetyMsg, strLit "Error"⟩ :=
  C1_terminal_errors_single_attempt _ _ 3 2000 abortError ⟨safetyMsg, strLit "Error"⟩ 5
    (by omega) rfl (Or.inl (by decide)) rfl (Or.inl (by decide))

/-- C2 counterexample: a 429 response on every attempt of the STREAMING
connection loop surfaces after exactly one call, not three: that loop retries
only network-classified failures. -/
theorem C2_counterexample_stream_429_single_attempt :
    (streamConnect (fun _ => streamTryBody (.ok ⟨false, 429, strLit "rate limited"⟩))).2.1
      = 1 ∧
    (streamConnect (fun _ => streamTryBody (.ok ⟨false, 429, strLit "rate limited"⟩))).1 =
      .error ⟨strLit "Provider API Error: 429 rate limited", strLit "Error"⟩ ∧
    isRateLimitMsg (strLit "Provider API Error: 429 rate limited") = true :=
  ⟨rfl, rfl, rfl⟩

/-- C2 (amended): with attempt cap 3 and base delay 2000 ms, `withRetry`
invokes an always-retryably-failing operation exactly 3 times with delays
[2000, 4000] and surfaces the last error; the streaming connection loop does
the same, but only for network-classified failures. -/
theorem C2_retry_budget_and_backoff {α : Type}
    (op : Nat → Nat → Except ErrInfo α × Nat) (es : Nat → ErrInfo) (ds : Nat → Nat)
    (att : Nat → Except ErrInfo Unit) (e' : Nat → ErrInfo)
    (hop : ∀ i t, op i t = (.error (es i), ds i))
    (hretry : ∀ i, (isRateLimitMsg (msgOf (es i)) || isServerMsg (msgOf (es i))
      || isNetworkMsg (msgOf (es i))) = true)
    (habort : ∀ i, isAbortedErr (es i) = false)
    (hsafe : ∀ i, isSafetyBlockMsg (msgOf (es i)) = false)
    (hatt : ∀ i, att i = .error (e' i))
    (hnet : ∀ i, isNetworkMsg (e' i).message = true)
    (hnb : ∀ i, strHas (strLit "Content blocked by") (e' i).message = false) :
    (withRetry op 3 2000).calls = 3 ∧
    (withRetry op 3 2000).delays = [2000, 4000] ∧
    (withRetry op 3 2000).result = .error (es 2) ∧
    (streamConnect att).2.1 = 3 ∧
    (streamConnect att).2.2 = [2000, 4000] ∧
    (streamConnect att).1 = .error (e' 2) := by
  have h1 : withRetry op 3 2000 = ⟨.error (es 2), 3, [2000, 4000],
      ds 0 + 2000 + (ds 1 + 4000) + ds 2⟩ := by
    unfold withRetry
    simp [withRetryGo, hop, habort, hsafe, hretry]
    omega
  have h2 : streamConnect att = (.error (e' 2), 3, [2000, 4000]) := by
    unfold streamConnect
    simp [streamConnGo, hatt, hnet, hnb]
  rw [h1, h2]
  exact ⟨rfl, rfl, rfl, rfl, rfl, rfl⟩

/-- C2 witness: a constant 429 failure through `withRetry` and a constant
network failure through the connection loop. -/
theorem C2_retry_budget_and_backoff_witness :
    (withRetry (fun _ _ => ((.error ⟨strLit "HTTP 429 Too Many Requests", strLit "Error"⟩ :
        Except ErrInfo Nat), 0)) 3 2000).calls = 3 ∧
    (withRetry (fun _ _ => ((.error ⟨strLit "HTTP 429 Too Many Requests", strLit "Error"⟩ :
        Except ErrInfo Nat), 0)) 3 2000).delays = [2000, 4000] ∧
    (withRetry (fun _ _ => ((.error ⟨strLit "HTTP 429 Too Many Requests", strLit "Error"⟩ :
        Except ErrInfo Nat), 0)) 3 2000).result =
      .error ⟨strLit "HTTP 429 Too Many Requests", strLit "Error"⟩ ∧
    (streamConnect (fun _ => .error ⟨strLit "Failed to fetch", strLit "TypeError"⟩)).2.1 = 3 ∧
    (streamConnect (fun _ => .error ⟨strLit "Failed to fetch", strLit "TypeError"⟩)).2.2 =
      [2000, 4000] ∧
    (streamConnect (fun _ => .error ⟨strLit "Failed to fetch", strLit "TypeError"⟩)).1 =
      .error ⟨strLit "Failed to fetch", strLit "TypeError"⟩ :=
  C2_retry_budget_and_backoff _ (fun _ => ⟨strLit "HTTP 429 Too Many Requests", strLit "Error"⟩)
    (fun _ => 0) _ (fun _ => ⟨strLit "Failed to fetch", strLit "TypeError"⟩)
    (fun _ _ => rfl)
    (by
      intro i
      show (isRateLimitMsg (msgOf ⟨strLit "HTTP 429 Too Many Requests", strLit "Error"⟩) ||
        isServerMsg (msgOf ⟨strLit "HTTP 429 Too Many Requests", strLit "Error"⟩) ||
        isNetworkMsg (msgOf ⟨strLit "HTTP 429 Too Many Requests", strLit "Error"⟩)) = true
      decide)
    (by
      intro i
      show isAbortedErr ⟨strLit "HTTP 429 Too Many Requests", strLit "Error"⟩ = false
      decide)
    (by
      intro i
      show isSafetyBlockMsg (msgOf ⟨strLit "HTTP 429 Too Many Requests", strLit "Error"⟩)
        = false
      decide)
    (fun _ => rfl)
    (by
      intro i
      show isNetworkMsg (ErrInfo.message ⟨strLit "Failed to fetch", strLit "TypeError"⟩) = true
      decide)
    (by
      intro i
      show strHas (strLit "Content blocked by")
        (ErrInfo.message ⟨strLit "Failed to fetch", strLit "TypeError"⟩) = false
      decide)

/-- C8 counterexample: with the cancellation handle triggered at time 1
during the first backoff sleep, the retry loop still waits out the full
2000 ms delay, makes a second attempt, and settles only at time 2000. -/
theorem C8_counterexample_sleep_not_interrupted :
    (withRetry (fun _ t => if 1 ≤ t then ((.error abortError : Except ErrInfo Nat), 0)
      else (.error ⟨strLit "Failed to fetch", strLit "TypeError"⟩, 0)) 3 2000).endTime
      = 2000 ∧
    (withRetry (fun _ t => if 1 ≤ t then ((.error abortError : Except ErrInfo Nat), 0)
      else (.error ⟨strLit "Failed to fetch", strLit "TypeError"⟩, 0)) 3 2000).calls = 2 ∧
    (withRetry (fun _ t => if 1 ≤ t then ((.error abortError : Except ErrInfo Nat), 0)
      else (.error ⟨strLit "Failed to fetch", strLit "TypeError"⟩, 0)) 3 2000).result =
      .error abortError :=
  ⟨rfl, rfl, rfl⟩

/-- One retryable step of the retry loop, stated at a generic successor so
that numeral fuel does not cascade. -/
theorem withRetryGo_step_retryable {α : Type} (op : Nat → Nat → Except ErrInfo α × Nat)
    (retries base rem i t : Nat) (last : Option ErrInfo) (e : ErrInfo) (d : Nat)
    (hop : op i t = (.error e, d)) (habort : isAbortedErr e = false)
    (hsafe : isSafetyBlockMsg (msgOf e) = false)
    (hretry : (isRateLimitMsg (msgOf e) || isServerMsg (msgOf e)
      || isNetworkMsg (msgOf e)) = true)
    (hi : i < retries - 1) :
    withRetryGo op retries base (rem + 1) i t last =
      ⟨(withRetryGo op retries base rem (i + 1) (t + d + base * 2 ^ i) (some e)).result,
       (withRetryGo op retries base rem (i + 1) (t + d + base * 2 ^ i) (some e)).calls + 1,
       base * 2 ^ i ::
         (withRetryGo op retries base rem (i + 1) (t + d + base * 2 ^ i) (some e)).delays,
       (withRetryGo op retries base rem (i + 1) (t + d + base * 2 ^ i) (some e)).endTime⟩ := by
  simp [withRetryGo, hop, habort, hsafe, hretry, hi]

/-- C8 (amended): the backoff sleep itself is not signal-aware — after a
first retryable failure the loop cannot settle before the full base delay has
elapsed — while an abort is surfaced immediately only by the outer
`wrapWithSignal` race, which settles with the AbortError at the abort time
whenever it precedes the inner settlement. -/
theorem C8_abort_race_timing {α : Type}
    (op : Nat → Nat → Except ErrInfo α × Nat) (e0 : ErrInfo) (d0 : Nat)
    (inner : Except ErrInfo α × Nat) (a : Nat)
    (hop : op 0 0 = (.error e0, d0))
    (habort : isAbortedErr e0 = false) (hsafe : isSafetyBlockMsg (msgOf e0) = false)
    (hretry : (isRateLimitMsg (msgOf e0) || isServerMsg (msgOf e0)
      || isNetworkMsg (msgOf e0)) = true)
    (hrace : a < inner.2) :
    d0 + 2000 ≤ (withRetry op 3 2000).endTime ∧
    wrapWithSignal inner (some a) = (.error abortError, a) := by
  constructor
  · have hstep := withRetryGo_step_retryable op 3 2000 2 0 0 none e0 d0 hop habort hsafe
      hretry (by omega)
    show d0 + 2000 ≤ (withRetryGo op 3 2000 (2 + 1) 0 0 none).endTime
    rw [hstep]
    refine Nat.le_trans ?_ (withRetryGo_endTime_ge op 3 2000 2 1 (0 + d0 + 2000 * 2 ^ 0)
      (some e0))
    simp
  · simp [wrapWithSignal, hrace]

/-- C8 witness: a 500 failure then the outer race aborting at time 5 against
an inner settlement at time 100. -/
theorem C8_abort_race_timing_witness :
    5 < ((.ok 0 : Except ErrInfo Nat), 100).2 ∧
    (0 + 2000 ≤ (withRetry (fun _ _ => ((.error ⟨strLit "HTTP 500", strLit "Error"⟩ :
        Except ErrInfo Nat), 0)) 3 2000).endTime ∧
      wrapWithSignal ((.ok 0 : Except ErrInfo Nat), 100) (some 5) =
        (.error abortError, 5)) :=
  ⟨by decide, C8_abort_race_timing _ ⟨strLit "HTTP 500", strLit "Error"⟩ 0
    ((.ok 0 : Except ErrInfo Nat), 100) 5 rfl (by decide) (by decide) (by decide)
    (by decide)⟩

/-- C4 counterexample: the bare numeral "0" is valid JSON, but its falsy
parse makes every strategy of `cleanAndParseJson` fall through, so the repair
throws instead of returning the directly parsed value. -/
theorem C4_counterexample_falsy_valid_json :
    jsonParse (strLit "0") = some (.num 0) ∧
    cleanAndParseJson (strLit "0") =
      .error (strLit "JSON Parse Error: Could not parse or repair output. Raw: 0...") :=
  ⟨rfl, rfl⟩

/-- C4 (amended): on input that is valid JSON with a TRUTHY parse and no
backtick, `cleanAndParseJson` returns exactly the value that direct parsing
returns, and the fence-stripping first strategy is a no-op. -/
theorem C4_valid_json_passthrough (s : Str) (v : Json)
    (hparse : jsonParse (trimStr s) = some v) (htruthy : jsTruthy v = true)
    (htick : '`' ∉ s) :
    cleanAndParseJson s = .ok v ∧ jsonParse s = some v := by
  have hne : s ≠ [] := by
    intro hs
    rw [hs] at hparse
    have h0 : jsonParse (trimStr ([] : Str)) = none := rfl
    rw [h0] at hparse
    exact Option.noConfusion hparse
  have h1 : tryTruthy (trimStr (stripTicks (stripFenceJson s))) = some v := by
    rw [stripFenceJson_of_no_tick htick, stripTicks_of_no_tick htick]
    simp [tryTruthy, hparse, htruthy]
  have h2 : jsonParse s = some v := by
    obtain ⟨a, b, hdecomp, ha, hb⟩ := trimStr_decomp s
    have hpad := jsonParse_ws_pad a b hparse ha hb
    rw [hdecomp, List.append_assoc]
    exact hpad
  exact ⟨by simp [cleanAndParseJson, hne, h1], h2⟩

/-- C4 witness: the padded array text " [1] " round-trips through the repair
with the same value as direct parsing. -/
theorem C4_valid_json_passthrough_witness :
    jsonParse (trimStr (strLit " [1] ")) = some (.arr [.num 1]) ∧
    (cleanAndParseJson (strLit " [1] ") = .ok (.arr [.num 1]) ∧
      jsonParse (strLit " [1] ") = some (.arr [.num 1])) :=
  ⟨rfl, C4_valid_json_passthrough _ _ rfl rfl (by decide)⟩

/-- C5: for every chunk sequence whose yielded tokens are all string
fragments, the concatenation of the yielded tokens equals the spec-side
concatenation of the `choices[0].delta.content` fields of the SSE data
records contained in the chunks, in arrival order. -/
theorem C5_stream_concat_refinement (chunks : List Str)
    (h : ∀ c ∈ streamDecode chunks, tokenIsStr c = true) :
    ((streamDecode chunks).map jsToStr).flatten = specConcatContents chunks := by
  rw [streamDecode_eq_lines, specConcatContents]
  apply lines_concat_agree
  intro l hl c hc
  apply h
  rw [streamDecode_eq_lines]
  exact List.mem_filterMap.mpr ⟨l, hl, hc⟩

/-- C5 witness: two single-record chunks whose contents "Hel" and "lo"
concatenate the same way on both sides. -/
theorem C5_stream_concat_refinement_witness :
    (∀ c ∈ streamDecode [strLit "data: \x7b\"choices\":[\x7b\"delta\":\x7b\"content\":\"Hel\"\x7d\x7d]\x7d\n",
        strLit "data: \x7b\"choices\":[\x7b\"delta\":\x7b\"content\":\"lo\"\x7d\x7d]\x7d\n"],
      tokenIsStr c = true) ∧
    ((streamDecode [strLit "data: \x7b\"choices\":[\x7b\"delta\":\x7b\"content\":\"Hel\"\x7d\x7d]\x7d\n",
        strLit "data: \x7b\"choices\":[\x7b\"delta\":\x7b\"content\":\"lo\"\x7d\x7d]\x7d\n"]).map
      jsToStr).flatten =
      specConcatContents [strLit "data: \x7b\"choices\":[\x7b\"delta\":\x7b\"content\":\"Hel\"\x7d\x7d]\x7d\n",
        strLit "data: \x7b\"choices\":[\x7b\"delta\":\x7b\"content\":\"lo\"\x7d\x7d]\x7d\n"] := by
  have hp : ∀ c ∈ streamDecode [strLit "data: \x7b\"choices\":[\x7b\"delta\":\x7b\"content\":\"Hel\"\x7d\x7d]\x7d\n",
      strLit "data: \x7b\"choices\":[\x7b\"delta\":\x7b\"content\":\"lo\"\x7d\x7d]\x7d\n"],
      tokenIsStr c = true := by
    intro c hc
    have he : streamDecode [strLit "data: \x7b\"choices\":[\x7b\"delta\":\x7b\"content\":\"Hel\"\x7d\x7d]\x7d\n",
        strLit "data: \x7b\"choices\":[\x7b\"delta\":\x7b\"content\":\"lo\"\x7d\x7d]\x7d\n"] =
        [.str (strLit "Hel"), .str (strLit "lo")] := rfl
    rw [he] at hc
    simp only [List.mem_cons, List.not_mem_nil, or_false] at hc
    rcases hc with rfl | rfl
    · rfl
    · rfl
  exact ⟨hp, C5_stream_concat_refinement _ hp⟩

/-- C6 counterexample: a record arriving after the `[DONE]` sentinel is still
yielded — the read loop `continue`s past the sentinel instead of stopping. -/
theorem C6_counterexample_sentinel_continues :
    streamDecode [strLit "data: [DONE]\ndata: \x7b\"choices\":[\x7b\"delta\":\x7b\"content\":\"AFTER\"\x7d\x7d]\x7d\n"] =
      [.str (strLit "AFTER")] := rfl

/-- C6 (amended): the `[DONE]` sentinel is skipped without being yielded as a
token, a data line whose payload does not parse is skipped without aborting,
and the token sequence is exactly the per-line processing of all complete
lines — termination comes only from the end of the transport, not from the
sentinel. -/
theorem C6_sentinel_and_malformed_skipped (line l : Str) (chunks : List Str)
    (hd : trimStr line = strLit "data: [DONE]")
    (hm : jsonParse ((trimStr l).drop 6) = none) :
    lineYield line = none ∧ lineYield l = none ∧
    streamDecode chunks = ((splitNl chunks.flatten).dropLast).filterMap lineYield := by
  refine ⟨?_, ?_, streamDecode_eq_lines chunks⟩
  · simp only [lineYield, hd]
    rfl
  · simp only [lineYield]
    cases hst : strStarts (strLit "data: ") (trimStr l)
    · simp
    · by_cases h6 : (trimStr l).drop 6 = strLit "[DONE]"
      · simp [h6]
      · simp [h6, hm]

/-- C6 witness: a concrete sentinel line, a malformed data line, and a chunk
sequence containing a record after the sentinel. -/
theorem C6_sentinel_and_malformed_skipped_witness :
    trimStr (strLit " data: [DONE] ") = strLit "data: [DONE]" ∧
    jsonParse ((trimStr (strLit "data: \x7bnot json")).drop 6) = none ∧
    (lineYield (strLit " data: [DONE] ") = none ∧
      lineYield (strLit "data: \x7bnot json") = none ∧
      streamDecode [strLit "data: [DONE]\ndata: bad\ndata: \x7b\"choices\":[\x7b\"delta\":\x7b\"content\":\"ok\"\x7d\x7d]\x7d\n"] =
        ((splitNl ([strLit "data: [DONE]\ndata: bad\ndata: \x7b\"choices\":[\x7b\"delta\":\x7b\"content\":\"ok\"\x7d\x7d]\x7d\n"] :
          List Str).flatten).dropLast).filterMap lineYield) :=
  ⟨rfl, rfl, C6_sentinel_and_malformed_skipped _ _ _ rfl rfl⟩

/-- C3 counterexample: a fenced OBJECT containing an array, with prose around
the fence, is hijacked by the bracket-extraction strategy: the repair returns
the inner array, not the value of parsing the unwrapped JSON (the object). -/
theorem C3_counterexample_bracket_extraction :
    cleanAndParseJson (strLit "Look: ```json\n\x7b\"a\": [1]\x7d\n``` thanks") =
      .ok (.arr [.num 1]) ∧
    jsonParse (strLit "\x7b\"a\": [1]\x7d") =
      some (.obj [(strLit "a", .arr [.num 1])]) :=
  ⟨rfl, rfl⟩

/-- C3 (amended): for a valid, truthy JSON ARRAY wrapped in a markdown fence
with leading and trailing prose, where the prose contains no backtick and no
stray brackets, starts with a non-whitespace character that cannot begin a
JSON value, and ends with a non-whitespace character, `cleanAndParseJson`
returns the value of parsing the unwrapped, unfenced JSON directly. -/
theorem C3_fenced_array_roundtrip (p1 s p2 : Str) (v : Json)
    (c1 : Char) (r1 : Str) (c2 : Char)
    (hp1 : p1 = c1 :: r1)
    (hw1 : wsChar c1 = false)
    (hq : c1 ≠ '"') (hbk : c1 ≠ '[') (hbr : c1 ≠ '{') (hln : c1 ≠ 'n')
    (hlt : c1 ≠ 't') (hlf : c1 ≠ 'f') (hmn : c1 ≠ '-') (hdg : c1.isDigit = false)
    (ht1 : '`' ∉ p1) (hsq1 : '[' ∉ p1)
    (hts : '`' ∉ s)
    (ht2 : '`' ∉ p2) (hcl2 : ']' ∉ p2)
    (hlast2 : p2.getLast? = some c2) (hw2 : wsChar c2 = false)
    (hheadS : s.head? = some '[') (hlastS : s.getLast? = some ']')
    (hparse : jsonParse s = some v) (htruthy : jsTruthy v = true) :
    cleanAndParseJson (fenceWrap p1 s p2) = .ok v := by
  have hclean : trimStr (stripTicks (stripFenceJson (fenceWrap p1 s p2))) =
      p1 ++ '\n' :: (s ++ '\n' :: '\n' :: p2) := by
    rw [clean_fenceWrap ht1 hts ht2]
    have hhead : p1 ++ '\n' :: (s ++ '\n' :: '\n' :: p2) =
        c1 :: (r1 ++ '\n' :: (s ++ '\n' :: '\n' :: p2)) := by rw [hp1]; rfl
    have hL : trimL (p1 ++ '\n' :: (s ++ '\n' :: '\n' :: p2)) =
        p1 ++ '\n' :: (s ++ '\n' :: '\n' :: p2) := by
      rw [hhead]; exact trimL_eq_self_of_head hw1
    have hp2ne : p2 ≠ [] := by
      intro h
      rw [h] at hlast2
      simp at hlast2
    have hlastu : (p1 ++ '\n' :: (s ++ '\n' :: '\n' :: p2)).getLast? = some c2 := by
      have he : p1 ++ '\n' :: (s ++ '\n' :: '\n' :: p2) =
          (p1 ++ '\n' :: (s ++ ['\n', '\n'])) ++ p2 := by simp
      rw [he, List.getLast?_append_of_ne_nil _ hp2ne]
      exact hlast2
    have hR : trimR (p1 ++ '\n' :: (s ++ '\n' :: '\n' :: p2)) =
        p1 ++ '\n' :: (s ++ '\n' :: '\n' :: p2) := trimR_eq_self_of_last hlastu hw2
    show trimR (trimL (p1 ++ '\n' :: (s ++ '\n' :: '\n' :: p2))) = _
    rw [hL, hR]
  have hcons : p1 ++ '\n' :: (s ++ '\n' :: '\n' :: p2) =
      c1 :: (r1 ++ '\n' :: (s ++ '\n' :: '\n' :: p2)) := by rw [hp1]; rfl
  have hs1 : tryTruthy (p1 ++ '\n' :: (s ++ '\n' :: '\n' :: p2)) = none := by
    have hsw : skipWs (c1 :: (r1 ++ '\n' :: (s ++ '\n' :: '\n' :: p2))) =
        c1 :: (r1 ++ '\n' :: (s ++ '\n' :: '\n' :: p2)) := skipWs_cons_of_not hw1
    have hnone := jsonParse_none_of_bad_head hsw hq hbk hbr hln hlt hlf hmn hdg
    rw [hcons]
    simp [tryTruthy, hnone]
  have hs2 : tryTruthy (fixUnquoted (p1 ++ '\n' :: (s ++ '\n' :: '\n' :: p2))) = none := by
    have hfix : fixUnquoted (p1 ++ '\n' :: (s ++ '\n' :: '\n' :: p2)) =
        c1 :: fixUnquoted (r1 ++ '\n' :: (s ++ '\n' :: '\n' :: p2)) := by
      rw [hcons]
      exact fixUnquoted_cons_of_ne_quote _ hq
    have hsw : skipWs (c1 :: fixUnquoted (r1 ++ '\n' :: (s ++ '\n' :: '\n' :: p2))) =
        c1 :: fixUnquoted (r1 ++ '\n' :: (s ++ '\n' :: '\n' :: p2)) :=
      skipWs_cons_of_not hw1
    have hnone := jsonParse_none_of_bad_head hsw hq hbk hbr hln hlt hlf hmn hdg
    rw [hfix]
    simp [tryTruthy, hnone]
  obtain ⟨s2, hs2e⟩ : ∃ s2, s = '[' :: s2 := by
    rcases hcs : s with _ | ⟨a, s2⟩
    · rw [hcs] at hheadS
      simp at hheadS
    · rw [hcs] at hheadS
      simp only [List.head?_cons] at hheadS
      injection hheadS with ha
      exact ⟨s2, by rw [ha]⟩
  have hs2ne : s2 ≠ [] := by
    intro h
    rw [hs2e, h] at hlastS
    simp at hlastS
  have hslen : 2 ≤ s.length := by
    rw [hs2e]
    have := List.length_pos.mpr hs2ne
    simp
    omega
  obtain ⟨w, hw⟩ : ∃ w, s.reverse = ']' :: w := by
    have hh : s.reverse.head? = some ']' := by
      rw [List.head?_reverse]
      exact hlastS
    rcases hr : s.reverse with _ | ⟨a, w⟩
    · rw [hr] at hh
      simp at hh
    · rw [hr] at hh
      simp only [List.head?_cons] at hh
      injection hh with ha
      exact ⟨w, by rw [ha]⟩
  have hfb : idxOf? '[' (p1 ++ '\n' :: (s ++ '\n' :: '\n' :: p2)) =
      some (p1.length + 1) := by
    rw [idxOf?_append_of_not_mem _ hsq1, idxOf?_cons_of_ne _ (by decide), hs2e,
      List.cons_append, idxOf?_cons_self]
    rfl
  have hrev : (p1 ++ '\n' :: (s ++ '\n' :: '\n' :: p2)).reverse =
      p2.reverse ++ '\n' :: '\n' :: (s.reverse ++ '\n' :: p1.reverse) := by
    simp
  have hlen : (p1 ++ '\n' :: (s ++ '\n' :: '\n' :: p2)).length =
      p1.length + s.length + 3 + p2.length := by
    simp
    omega
  have hlb : lastIdxOf? ']' (p1 ++ '\n' :: (s ++ '\n' :: '\n' :: p2)) =
      some (p1.length + s.length) := by
    rw [lastIdxOf?, hrev, idxOf?_append_of_not_mem _ (by simpa using hcl2),
      idxOf?_cons_of_ne _ (by decide), idxOf?_cons_of_ne _ (by decide), hw,
      List.cons_append, idxOf?_cons_self]
    simp [hlen]
    omega
  have hdrop : (p1 ++ '\n' :: (s ++ '\n' :: '\n' :: p2)).drop (p1.length + 1) =
      s ++ '\n' :: '\n' :: p2 := by
    have he : p1 ++ '\n' :: (s ++ '\n' :: '\n' :: p2) =
        (p1 ++ ['\n']) ++ (s ++ '\n' :: '\n' :: p2) := by simp
    have hl : p1.length + 1 = (p1 ++ ['\n']).length := by simp
    rw [he, hl, List.drop_left]
  have hspan : subStr (p1 ++ '\n' :: (s ++ '\n' :: '\n' :: p2)) (p1.length + 1)
      (p1.length + s.length + 1) = s := by
    rw [subStr, hdrop]
    have harith : p1.length + s.length + 1 - (p1.length + 1) = s.length := by omega
    rw [harith]
    exact List.take_left s _
  have hs3 : extractSpan '[' ']' (p1 ++ '\n' :: (s ++ '\n' :: '\n' :: p2)) = some v := by
    simp only [extractSpan, hfb, hlb]
    rw [if_pos (by omega : p1.length + 1 < p1.length + s.length)]
    simp only [hspan]
    simp [tryTruthy, hparse, htruthy]
  have hne : fenceWrap p1 s p2 ≠ [] := by
    rw [fenceWrap, hp1]
    simp
  simp only [cleanAndParseJson, if_neg hne, hclean, hs1, hs2, hs3]

/-- C3 witness: the array "[1, 2]" fenced between the prose "Sure!" and
"Done." round-trips to the directly parsed array. -/
theorem C3_fenced_array_roundtrip_witness :
    jsonParse (strLit "[1, 2]") = some (.arr [.num 1, .num 2]) ∧
    cleanAndParseJson (fenceWrap (strLit "Sure!") (strLit "[1, 2]") (strLit "Done.")) =
      .ok (.arr [.num 1, .num 2]) :=
  ⟨rfl, C3_fenced_array_roundtrip (strLit "Sure!") (strLit "[1, 2]") (strLit "Done.")
    (.arr [.num 1, .num 2]) 'S' (strLit "ure!") '.' rfl rfl (by decide) (by decide)
    (by decide) (by decide) (by decide) (by decide) (by decide) (by decide) (by decide)
    (by decide) (by decide) (by decide) (by decide) rfl (by decide) rfl rfl rfl rfl⟩

end AutoNovel
